import Mathlib

/-!
# Verification of the tinyurl backend (remicorne/tinyurl)

A shallow embedding of `src/backend/src/utils.py` and `src/backend/src/app.py`
into Lean 4, together with theorems settling the specification's claims.

Modelling conventions:
* Python strings are `List Char` (Lean `Char` is a Unicode scalar value; lone
  surrogates, on which the Python code raises while percent-encoding, are
  outside the model's domain).
* Python's `urllib.parse` functions (`urlparse`, `urlunparse`, `parse_qsl`,
  `urlencode`, `quote_plus`, `unquote`) are embedded following the CPython
  3.11 implementations that the code calls.  The checks of `urlsplit` that
  need the Unicode database or `ipaddress` (`_checknetloc`'s NFKC check,
  `_check_bracketed_host`) are not modelled: the model accepts those inputs.
  `str.lower` is modelled on the ASCII range.
* Exceptions are `Option`/explicit error values: a Python `raise` that the
  Flask handler's `except Exception` catches is a `serverError` outcome.
* The database is an in-memory record list keeping insertion order; `SELECT`
  without `ORDER BY` is modelled as returning rows in insertion order.
* Timestamps are `Nat`.
-/

namespace TinyUrl

abbrev Str := List Char

/-! ## Basic character/string helpers -/

/-- ASCII letter test (`a`–`z`, `A`–`Z`), as `str.isascii() and
str.isalpha()` on one char. -/
def isAsciiAlpha (c : Char) : Bool :=
  (97 ≤ c.toNat ∧ c.toNat ≤ 122) ∨ (65 ≤ c.toNat ∧ c.toNat ≤ 90)

/-- ASCII digit test (`0`–`9`). -/
def isAsciiDigit (c : Char) : Bool :=
  48 ≤ c.toNat ∧ c.toNat ≤ 57

/-- Characters allowed in a URL scheme, CPython's `scheme_chars`
(`abcdefghijklmnopqrstuvwxyzABCDEFGHIJKLMNOPQRSTUVWXYZ0123456789+-.`). -/
def isSchemeChar (c : Char) : Bool :=
  isAsciiAlpha c ∨ isAsciiDigit c ∨ c = '+' ∨ c = '-' ∨ c = '.'

/-- ASCII lower-casing of one char (model of `str.lower` on the ASCII
range): `A`–`Z` shifts down into `a`–`z`. -/
def lowerChar (c : Char) : Char :=
  if 65 ≤ c.toNat ∧ c.toNat ≤ 90 then Char.ofNat (c.toNat + 32) else c

def lowerStr (s : Str) : Str := s.map lowerChar

/-- CPython `_WHATWG_C0_CONTROL_OR_SPACE`: `\x00`–`\x1f` and space. -/
def isC0ControlOrSpace (c : Char) : Bool := c.toNat ≤ 32

/-- CPython `_UNSAFE_URL_BYTES_TO_REMOVE`: tab, CR, LF. -/
def isUnsafeUrlChar (c : Char) : Bool :=
  c = Char.ofNat 9 ∨ c = Char.ofNat 13 ∨ c = Char.ofNat 10

/-- `str.lstrip(chars)` for a character predicate. -/
def lstripWhile (p : Char → Bool) : Str → Str
  | [] => []
  | c :: s => if p c then lstripWhile p s else c :: s

/-- membership test `c in s` for Python strings. -/
def strContains (s : Str) (c : Char) : Bool := s.contains c

/-- `s.find(c)`: index of the first occurrence, if any. -/
def findIdx (c : Char) : Str → Option Nat
  | [] => none
  | d :: s => if d = c then some 0 else (findIdx c s).map (· + 1)

/-- `s.find(c, start)` restricted to the suffix: first index `≥ start`. -/
def findIdxFrom (c : Char) (s : Str) (start : Nat) : Option Nat :=
  (findIdx c (s.drop start)).map (· + start)

/-- `s.rfind(c)`: index of the last occurrence, if any. -/
def rfindIdx (c : Char) : Str → Option Nat
  | [] => none
  | d :: s =>
    match rfindIdx c s with
    | some i => some (i + 1)
    | none => if d = c then some 0 else none

/-- `s.split(sep, 1)`: the part before the first `sep`, and the part after it
when `sep` occurs. -/
def splitFirst (sep : Char) : Str → Str × Option Str
  | [] => ([], none)
  | c :: s =>
    if c = sep then ([], some s)
    else
      let r := splitFirst sep s
      (c :: r.1, r.2)

/-- `s.split(sep)` (Python semantics: `"".split(sep) = [""]`). -/
def splitAll (sep : Char) : Str → List Str
  | [] => [[]]
  | c :: s =>
    let r := splitAll sep s
    if c = sep then [] :: r
    else
      match r with
      | [] => [[c]]
      | h :: t => (c :: h) :: t

/-! ## UTF-8 encoding and decoding

`str.encode('utf-8')` / `bytes.decode('utf-8', 'replace')` as used by
`quote_plus` and `unquote`.  Bytes are `Nat`s below 256. -/

def utf8Encode (c : Char) : List Nat :=
  if c.toNat < 0x80 then [c.toNat]
  else if c.toNat < 0x800 then [0xC0 + c.toNat / 64, 0x80 + c.toNat % 64]
  else if c.toNat < 0x10000 then
    [0xE0 + c.toNat / 4096, 0x80 + c.toNat / 64 % 64, 0x80 + c.toNat % 64]
  else
    [0xF0 + c.toNat / 0x40000, 0x80 + c.toNat / 4096 % 64,
     0x80 + c.toNat / 64 % 64, 0x80 + c.toNat % 64]

def utf8EncodeStr (s : Str) : List Nat := s.flatMap utf8Encode

/-- Is `b` a UTF-8 continuation byte (`0x80`–`0xBF`)? -/
def isCont (b : Nat) : Bool := 0x80 ≤ b ∧ b < 0xC0

/-- The replacement character `U+FFFD` used by `errors='replace'`. -/
def replacementChar : Char := Char.ofNat 0xFFFD

/-- `bytes.decode('utf-8', 'replace')`, following the maximal-subpart policy
of CPython's UTF-8 decoder: a valid sequence decodes to its scalar; an
invalid or truncated sequence yields one `U+FFFD` for the consumed prefix
and decoding resumes at the first unconsumed byte.  (Continuation bytes are
inspected through `headD` before the list is taken apart so that every
recursive call is structural.) -/
def utf8DecodeReplace : List Nat → Str
  | [] => []
  | b :: rest =>
    if b < 0x80 then Char.ofNat b :: utf8DecodeReplace rest
    else if 0xC2 ≤ b ∧ b < 0xE0 then
      if isCont (rest.headD 0) ∧ rest ≠ [] then
        match rest with
        | b1 :: r1 => Char.ofNat ((b - 0xC0) * 64 + (b1 - 0x80)) :: utf8DecodeReplace r1
        | [] => []
      else if rest = [] then [replacementChar]
      else replacementChar :: utf8DecodeReplace rest
    else if 0xE0 ≤ b ∧ b < 0xF0 then
      if rest = [] then [replacementChar]
      else if ¬ (isCont (rest.headD 0) ∧ (b = 0xE0 → 0xA0 ≤ rest.headD 0) ∧
                 (b = 0xED → rest.headD 0 < 0xA0)) then
        replacementChar :: utf8DecodeReplace rest
      else
        match rest with
        | b1 :: r1 =>
          if r1 = [] then [replacementChar]
          else if ¬ isCont (r1.headD 0) then replacementChar :: utf8DecodeReplace r1
          else
            match r1 with
            | b2 :: r2 =>
              Char.ofNat ((b - 0xE0) * 4096 + (b1 - 0x80) * 64 + (b2 - 0x80)) ::
                utf8DecodeReplace r2
            | [] => []
        | [] => []
    else if 0xF0 ≤ b ∧ b < 0xF5 then
      if rest = [] then [replacementChar]
      else if ¬ (isCont (rest.headD 0) ∧ (b = 0xF0 → 0x90 ≤ rest.headD 0) ∧
                 (b = 0xF4 → rest.headD 0 < 0x90)) then
        replacementChar :: utf8DecodeReplace rest
      else
        match rest with
        | b1 :: r1 =>
          if r1 = [] then [replacementChar]
          else if ¬ isCont (r1.headD 0) then replacementChar :: utf8DecodeReplace r1
          else
            match r1 with
            | b2 :: r2 =>
              if r2 = [] then [replacementChar]
              else if ¬ isCont (r2.headD 0) then replacementChar :: utf8DecodeReplace r2
              else
                match r2 with
                | b3 :: r3 =>
                  Char.ofNat ((b - 0xF0) * 0x40000 + (b1 - 0x80) * 4096 +
                    (b2 - 0x80) * 64 + (b3 - 0x80)) :: utf8DecodeReplace r3
                | [] => []
            | [] => []
        | [] => []
    else replacementChar :: utf8DecodeReplace rest

/-! ## Percent-encoding: `quote_plus`, `unquote`, `unquote_plus` -/

/-- Hex digit test (`0`–`9`, `a`–`f`, `A`–`F`), the keys of CPython's
`_hextobyte` table. -/
def isHexDigit (c : Char) : Bool :=
  isAsciiDigit c ∨ (97 ≤ c.toNat ∧ c.toNat ≤ 102) ∨ (65 ≤ c.toNat ∧ c.toNat ≤ 70)

def hexVal (c : Char) : Nat :=
  if isAsciiDigit c then c.toNat - 48
  else if 97 ≤ c.toNat ∧ c.toNat ≤ 102 then c.toNat - 97 + 10
  else c.toNat - 65 + 10

/-- Upper-case hex digit for `0 ≤ n < 16`, as `'%{:02X}'.format`. -/
def hexDigitUpper (n : Nat) : Char :=
  if n < 10 then Char.ofNat (48 + n) else Char.ofNat (65 + (n - 10))

/-- CPython `_ALWAYS_SAFE`: ASCII letters, digits, `_.-~`. -/
def isAlwaysSafe (c : Char) : Bool :=
  isAsciiAlpha c ∨ isAsciiDigit c ∨ c = '_' ∨ c = '.' ∨ c = '-' ∨ c = '~'

/-- One input char of `quote_plus(s, safe='')`: safe chars kept, space becomes
`+`, everything else percent-encodes its UTF-8 bytes with upper-case hex. -/
def quotePlusChar (c : Char) : Str :=
  if isAlwaysSafe c then [c]
  else if c = ' ' then ['+']
  else (utf8Encode c).flatMap fun b => ['%', hexDigitUpper (b / 16), hexDigitUpper (b % 16)]

/-- `quote_plus(s, safe='')` as called by `urlencode`. -/
def quote_plus (s : Str) : Str := s.flatMap quotePlusChar

/-- `unquote_to_bytes` on an ASCII-only string: chars become their bytes,
`%XY` with two hex digits becomes one byte, a `%` not followed by two hex
digits is literal. -/
def unquoteToBytes : Str → List Nat
  | [] => []
  | '%' :: a :: b :: rest =>
    if isHexDigit a ∧ isHexDigit b then
      (hexVal a * 16 + hexVal b) :: unquoteToBytes rest
    else '%'.toNat :: unquoteToBytes (a :: b :: rest)
  | c :: rest => c.toNat :: unquoteToBytes rest

def isAsciiChar (c : Char) : Bool := c.toNat < 0x80

/-- Split a string into its maximal runs of chars agreeing on a predicate's
value, in order, each run tagged with that value. -/
def splitRuns (p : Char → Bool) : Str → List (Bool × Str)
  | [] => []
  | c :: rest =>
    match splitRuns p rest with
    | (b, run) :: more =>
      if p c = b then (b, c :: run) :: more
      else (p c, [c]) :: (b, run) :: more
    | [] => [(p c, [c])]

/-- `unquote(s, encoding='utf-8', errors='replace')`: each maximal ASCII run
is percent-decoded to bytes and UTF-8-decoded with replacement; maximal
non-ASCII runs pass through (CPython splits on `_asciire`). -/
def unquote (s : Str) : Str :=
  (splitRuns isAsciiChar s).flatMap fun r =>
    if r.1 then utf8DecodeReplace (unquoteToBytes r.2) else r.2

/-- The `+`-to-space replacement of `parse_qsl` (`.replace('+', ' ')`). -/
def plusToSpace (c : Char) : Char := if c = '+' then ' ' else c

/-- `unquote_plus`: `+` to space, then `unquote` (the `.replace('+', ' ')`
then `unquote` steps of `parse_qsl`). -/
def unquote_plus (s : Str) : Str :=
  unquote (s.map plusToSpace)

/-! ## `parse_qsl`, `urlencode`, and `order_query` -/

/-- A decoded query pair. -/
abbrev QPair := Str × Str

/-- One `name=value` segment of `parse_qsl` (with `keep_blank_values=True`):
an empty segment is skipped, a segment without `=` keeps a blank value. -/
def parseQslItem (nv : Str) : Option QPair :=
  if nv = [] then none
  else
    match splitFirst '=' nv with
    | (name, some value) => some (unquote_plus name, unquote_plus value)
    | (name, none) => some (unquote_plus name, [])

/-- `parse_qsl(qs, keep_blank_values=True)` (separator `&`). -/
def parse_qsl (qs : Str) : List QPair :=
  if qs = [] then [] else (splitAll '&' qs).filterMap parseQslItem

/-- `'&'.join(items)`. -/
def joinAmp : List Str → Str
  | [] => []
  | [x] => x
  | x :: y :: ys => x ++ '&' :: joinAmp (y :: ys)

/-- `urlencode(pairs, doseq=True)` on string pairs: quote each side with
`quote_plus`, join with `=` and `&`. -/
def urlencode (ps : List QPair) : Str :=
  joinAmp (ps.map fun p => quote_plus p.1 ++ '=' :: quote_plus p.2)

/-- Three-way comparison of strings by Unicode code point, as Python `str`
comparison. -/
def strCmp : Str → Str → Ordering
  | [], [] => .eq
  | [], _ :: _ => .lt
  | _ :: _, [] => .gt
  | a :: as_, b :: bs =>
    if a.toNat < b.toNat then .lt
    else if b.toNat < a.toNat then .gt
    else strCmp as_ bs

/-- Python tuple comparison `(k1, v1) <= (k2, v2)` on string pairs. -/
def pairLeB (p q : QPair) : Bool :=
  match strCmp p.1 q.1 with
  | .lt => true
  | .gt => false
  | .eq =>
    match strCmp p.2 q.2 with
    | .gt => false
    | _ => true

def pairLe (p q : QPair) : Prop := pairLeB p q = true

instance : DecidableRel pairLe := fun p q => by
  unfold pairLe; infer_instance

/-- `query_pairs.sort()`: Python's sort returns the unique sorted arrangement
under the total, antisymmetric tuple order, so any sorting algorithm gives
the same list; modelled with insertion sort. -/
def sortPairs (ps : List QPair) : List QPair := List.insertionSort pairLe ps

/-- `order_query` from `utils.py`: parse, sort pairs (full `(key, value)`
tuple order), re-encode. -/
def order_query (query : Str) : Str :=
  urlencode (sortPairs (parse_qsl query))

/-! ## `urllib.parse.urlparse` / `urlunparse` -/

/-- The result of `urlparse`: scheme, netloc, path, params, query, fragment. -/
structure ParseResult where
  scheme : Str
  netloc : Str
  path : Str
  params : Str
  query : Str
  fragment : Str
deriving DecidableEq

/-- CPython `uses_params`. -/
def uses_params : List Str :=
  ["", "ftp", "hdl", "prospero", "http", "imap", "https", "shttp", "rtsp",
   "rtsps", "rtspu", "sip", "sips", "mms", "sftp", "tel"].map String.data

/-- CPython `uses_netloc`. -/
def uses_netloc : List Str :=
  ["", "ftp", "http", "gopher", "nntp", "telnet", "imap", "wais", "file",
   "mms", "https", "shttp", "snews", "prospero", "rtsp", "rtsps", "rtspu",
   "rsync", "svn", "svn+ssh", "sftp", "nfs", "git", "git+ssh", "ws",
   "wss"].map String.data

def startsWith2Slash : Str → Bool
  | '/' :: '/' :: _ => true
  | _ => false

/-- `url[0].isascii() and url[0].isalpha()` (false on the empty string). -/
def headIsAsciiAlpha (s : Str) : Bool :=
  match s.head? with
  | some c => isAsciiAlpha c
  | none => false

/-- A char ending the netloc in `_splitnetloc` (`'/?#'`). -/
def isNetlocEnd (c : Char) : Bool := c = '/' ∨ c = '?' ∨ c = '#'

/-- `urlsplit(url)` (CPython 3.11): strip leading C0-control/space, drop
tab/CR/LF, split off scheme (lower-cased), `//netloc`, fragment, query.
`none` models the `ValueError("Invalid IPv6 URL")` raise on mismatched
brackets in the netloc.  (`_checknetloc`'s NFKC check and
`_check_bracketed_host`, which need the Unicode database and `ipaddress`,
are not modelled: the model accepts such netlocs.) -/
def urlsplitM (url0 : Str) : Option (Str × Str × Str × Str × Str) :=
  let url1 := lstripWhile isC0ControlOrSpace url0
  let u := url1.filter fun c => ¬ isUnsafeUrlChar c
  let sp :=
    match findIdx ':' u with
    | some i =>
      if 0 < i ∧ headIsAsciiAlpha u ∧ (u.take i).all isSchemeChar then
        (lowerStr (u.take i), u.drop (i + 1))
      else (([] : Str), u)
    | none => (([] : Str), u)
  let scheme := sp.1
  let rest := sp.2
  let np :=
    if startsWith2Slash rest then
      ((rest.drop 2).takeWhile fun c => ¬ isNetlocEnd c,
       (rest.drop 2).dropWhile fun c => ¬ isNetlocEnd c)
    else (([] : Str), rest)
  let netloc := np.1
  if (strContains netloc '[' ∧ ¬ strContains netloc ']') ∨
     (strContains netloc ']' ∧ ¬ strContains netloc '[') then
    none
  else
    let fp := splitFirst '#' np.2
    let fragment := fp.2.getD []
    let qp := splitFirst '?' fp.1
    let query := qp.2.getD []
    some (scheme, netloc, qp.1, query, fragment)

/-- `_splitparams(url)`: split `params` off the last path segment — the
first `;` at-or-after the last `/` (when `/` occurs), else the first `;`.
The callers only use it when `;` occurs in `url`, so the `;`-absent fallback
branches are unreachable from `urlparse`. -/
def splitparams (url : Str) : Str × Str :=
  if strContains url '/' then
    let lastSeg := (url.reverse.takeWhile fun c => ¬ c = '/').reverse
    let front := (url.reverse.dropWhile fun c => ¬ c = '/').reverse
    match splitFirst ';' lastSeg with
    | (a, some b) => (front ++ a, b)
    | (_, none) => (url, [])
  else
    match splitFirst ';' url with
    | (a, some b) => (a, b)
    | (_, none) => (url, [])

/-- `urlparse(url)`: `urlsplit` plus the params split, which only happens for
schemes in `uses_params`. -/
def urlparseM (url : Str) : Option ParseResult :=
  match urlsplitM url with
  | none => none
  | some (scheme, netloc, path, query, fragment) =>
    if uses_params.contains scheme ∧ strContains path ';' then
      let pp := splitparams path
      some ⟨scheme, netloc, pp.1, pp.2, query, fragment⟩
    else
      some ⟨scheme, netloc, path, [], query, fragment⟩

/-- `urlunsplit((scheme, netloc, url, query, fragment))`. -/
def urlunsplitM (scheme netloc url query fragment : Str) : Str :=
  let u1 :=
    if netloc ≠ [] ∨ (scheme ≠ [] ∧ uses_netloc.contains scheme ∧ ¬ startsWith2Slash url) then
      '/' :: '/' :: netloc ++ (if url ≠ [] ∧ url.head? ≠ some '/' then '/' :: url else url)
    else url
  let u2 := if scheme ≠ [] then scheme ++ ':' :: u1 else u1
  let u3 := if query ≠ [] then u2 ++ '?' :: query else u2
  if fragment ≠ [] then u3 ++ '#' :: fragment else u3

/-- `urlunparse((scheme, netloc, path, params, query, fragment))`. -/
def urlunparseM (scheme netloc path params query fragment : Str) : Str :=
  urlunsplitM scheme netloc (if params ≠ [] then path ++ ';' :: params else path)
    query fragment

/-! ## `utils.py`: `parse_url`, `normalize_url`, `generate_random_slug` -/

/-- `parse_url(raw_url)` from `utils.py`: parse; when no scheme was found,
prepend `http://` to the raw string left-stripped of `:` and `/` and parse
again; raise (`none`) when the netloc is still empty. -/
def parse_url (raw_url : Str) : Option ParseResult :=
  match urlparseM raw_url with
  | none => none
  | some p1 =>
    let validated :=
      if p1.scheme = [] then
        "http://".data ++ lstripWhile (fun c => c = ':' ∨ c = '/') raw_url
      else raw_url
    match urlparseM validated with
    | none => none
    | some p2 => if p2.netloc = [] then none else some p2

/-- `normalize_url(url)` from `utils.py`: keep the (parse-lower-cased)
scheme, lower-case the netloc, default the empty path to `/`, sort the query
pairs, carry params and fragment through, and reassemble. -/
def normalize_url (url : Str) : Option Str :=
  match parse_url url with
  | none => none
  | some p =>
    some (urlunparseM p.scheme (lowerStr p.netloc)
      (if p.path = [] then ['/'] else p.path) p.params (order_query p.query)
      p.fragment)

/-- `BASE36_ALPHABET = string.ascii_lowercase + string.digits`. -/
def BASE36_ALPHABET : Str := "abcdefghijklmnopqrstuvwxyz0123456789".data

/-- Seed derived from the seed string, modelling `rd.seed(url)` (CPython
hashes the string into an integer seed; the hash is abstracted, its
determinism kept). -/
def seedFromString (s : Str) : Nat :=
  s.foldl (fun a c => (a * 31 + c.toNat) % 2 ^ 32) 17

/-- One step of the seeded generator's output stream.  Stands in for the
Mersenne-Twister step of `random.Random`: a fixed 64-bit linear congruential
map (Knuth's MMIX multiplier), keeping the contract the code relies on —
the stream is a pure function of the seed. -/
def randStep (state : Nat) : Nat :=
  (state * 6364136223846793005 + 1442695040888963407) % 2 ^ 64

/-- `rd.choice(BASE36_ALPHABET)`: advance the stream and pick one of the 36
symbols. -/
def choice36 (state : Nat) : Char × Nat :=
  let s := randStep state
  (BASE36_ALPHABET.get ⟨s / 2 ^ 32 % 36, by
    have h36 : BASE36_ALPHABET.length = 36 := by decide
    rw [h36]
    exact Nat.mod_lt _ (by norm_num)⟩, s)

def drawSlug : Nat → Nat → Str
  | _, 0 => []
  | st, n + 1 =>
    let r := choice36 st
    r.1 :: drawSlug r.2 n

/-- `generate_random_slug(url, length=8)` from `utils.py`: seed a fresh
deterministic generator with the string `url`, then join `length` draws of
`rd.choice(BASE36_ALPHABET)`. -/
def generate_random_slug (url : Str) (length : Nat) : Str :=
  drawSlug (seedFromString url) length

/-! ## The store (`db/orm.py` + schema) and the Flask handlers (`app.py`) -/

/-- A row of the `urls` table. -/
structure UrlRecord where
  id : Nat
  slug : Str
  normalized_url : Str
  created_at : Nat
  expires_at : Option Nat
deriving DecidableEq

/-- A row of the `access_logs` table. -/
structure AccessLog where
  url_id : Nat
  accessed_at : Nat
deriving DecidableEq

/-- The database: rows in insertion order, plus the next `id` to assign. -/
structure DBState where
  urls : List UrlRecord
  access_logs : List AccessLog
  nextId : Nat
deriving DecidableEq

def emptyDB : DBState := ⟨[], [], 0⟩

/-- `select_one("... FROM urls WHERE normalized_url = %s", nurl)`. -/
def findByNorm (s : DBState) (nurl : Str) : Option UrlRecord :=
  s.urls.find? fun r => decide (r.normalized_url = nurl)

/-- `select_one("... FROM urls WHERE slug = %s", slug)`. -/
def findBySlug (s : DBState) (slug : Str) : Option UrlRecord :=
  s.urls.find? fun r => decide (r.slug = slug)

/-- `select_one("SELECT 1 AS ok FROM urls WHERE slug = %s", slug)` is truthy. -/
def slugTaken (s : DBState) (slug : Str) : Bool :=
  s.urls.any fun r => decide (r.slug = slug)

/-- Modelled from the spec: the `urls` table's UNIQUE constraints on `slug`
and on the canonical URL column (§6 `urls(id, slug UNIQUE, canonical_url
UNIQUE, ...)`; the repository's `db_schema.sql` is not under `src/`).
`INSERT INTO urls ...` succeeds appending the row, or reports a uniqueness
violation (`none`), which `psycopg` raises as an exception. -/
def insertUrl (s : DBState) (slug nurl : Str) (now : Nat) (expires : Option Nat) :
    Option DBState :=
  if s.urls.any (fun r => decide (r.slug = slug) ∨ decide (r.normalized_url = nurl)) then
    none
  else
    some ⟨s.urls ++ [⟨s.nextId, slug, nurl, now, expires⟩], s.access_logs, s.nextId + 1⟩

/-- `INSERT INTO access_logs (url_id, accessed_at) VALUES (%s, NOW())`. -/
def appendLog (s : DBState) (urlId now : Nat) : DBState :=
  ⟨s.urls, s.access_logs ++ [⟨urlId, now⟩], s.nextId⟩

/-- The JSON body of `POST /urls`: each field is `some` when the key is
present (`body["url"]` / `body["expiry_date"]` raise `KeyError` on a missing
key); a present `expiry_date` may be JSON `null` (`some none`). -/
structure Body where
  url : Option Str
  expiry_date : Option (Option Nat)
deriving DecidableEq

/-- Outcome of the `new_url` handler: HTTP 201 with the fresh slug, HTTP 200
with the existing slug ("already existed"), or the `except Exception`
response (HTTP 500). -/
inductive CreateOut
  | created (slug : Str)
  | existed (slug : Str)
  | serverError
deriving DecidableEq

/-- The handler's HTTP status for each outcome (`HTTPStatus.CREATED`,
`HTTPStatus.OK`, `HTTPStatus.INTERNAL_SERVER_ERROR`). -/
def CreateOut.statusCode : CreateOut → Nat
  | .created _ => 201
  | .existed _ => 200
  | .serverError => 500

/-- The slug-probing loop of `new_url`:
`while select_one(...slug...): slug = generate_random_slug(url + slug)`.
`fuel` bounds the number of retries the model unrolls; `none` means the loop
was still running after `fuel` retries. -/
def findFreeSlug (s : DBState) (url : Str) : Nat → Str → Option Str
  | 0, slug => if slugTaken s slug then none else some slug
  | n + 1, slug =>
    if slugTaken s slug then
      findFreeSlug s url n (generate_random_slug (url ++ slug) 8)
    else some slug

/-- The `new_url` handler with the store state seen by each round trip made
explicit: the dedup check and the slug probes read `sCheck`, while the
`INSERT` lands on `sIns`.  Sequential execution is `sCheck = sIns`
(`new_url` below); `sCheck ≠ sIns` models another request committing between
the check and the insert.  Errors anywhere are caught by the handler's
`except Exception` and become `serverError` (HTTP 500) with the store left
as the insert found it. -/
def new_urlAt (sCheck sIns : DBState) (body : Body) (now fuel : Nat) :
    Option (CreateOut × DBState) :=
  match body.url with
  | none => some (.serverError, sIns)
  | some url =>
    match body.expiry_date with
    | none => some (.serverError, sIns)
    | some expires =>
      match normalize_url url with
      | none => some (.serverError, sIns)
      | some nurl =>
        match findByNorm sCheck nurl with
        | some r => some (.existed r.slug, sIns)
        | none =>
          match findFreeSlug sCheck url fuel (generate_random_slug url 8) with
          | none => none
          | some slug =>
            match insertUrl sIns slug nurl now expires with
            | none => some (.serverError, sIns)
            | some s' => some (.created slug, s')

/-- `POST /urls` (`new_url` in `app.py`) run sequentially. -/
def new_url (s : DBState) (body : Body) (now fuel : Nat) :
    Option (CreateOut × DBState) :=
  new_urlAt s s body now fuel

/-- Outcome of the `redirect_url` handler: HTTP 404, HTTP 410, or a 302
redirect whose `Location` is the stored `normalized_url`. -/
inductive RedirectOut
  | notFound
  | expired
  | redirectTo (target : Str)
deriving DecidableEq

/-- `GET /<slug>` (`redirect_url` in `app.py`): 404 when no row; 410 when
`expires_at` is set and `expires_at < pendulum.now()`; otherwise insert one
access log row and redirect to `normalized_url`. -/
def redirect_url (s : DBState) (slug : Str) (now : Nat) : RedirectOut × DBState :=
  match findBySlug s slug with
  | none => (.notFound, s)
  | some r =>
    match r.expires_at with
    | some t =>
      if t < now then (.expired, s)
      else (.redirectTo r.normalized_url, appendLog s r.id now)
    | none => (.redirectTo r.normalized_url, appendLog s r.id now)

/-- Outcome of the `get_url_stats` handler: HTTP 404, or HTTP 200 with the
row and the `accessed_at` list of its access-log rows. -/
inductive StatsOut
  | notFound
  | ok (slug : Str) (normalized_url : Str) (created_at : Nat)
      (expires_at : Option Nat) (accessed_at : List Nat)
deriving DecidableEq

/-- `SELECT accessed_at FROM access_logs WHERE url_id = %s` (insertion
order). -/
def accessTimes (s : DBState) (urlId : Nat) : List Nat :=
  (s.access_logs.filter fun l => decide (l.url_id = urlId)).map fun l => l.accessed_at

/-- `GET /urls/<slug>` (`get_url_stats` in `app.py`). -/
def get_url_stats (s : DBState) (slug : Str) : StatsOut :=
  match findBySlug s slug with
  | none => .notFound
  | some r => .ok r.slug r.normalized_url r.created_at r.expires_at (accessTimes s r.id)

/-- One Create request: body, wall-clock time, loop fuel. -/
structure CreateCall where
  body : Body
  now : Nat
  fuel : Nat

/-- A sequence of Create calls run back to back (`none` as soon as one
slug-probe loop exceeds its fuel). -/
def runCreates : DBState → List CreateCall → Option DBState
  | s, [] => some s
  | s, c :: cs =>
    match new_url s c.body c.now c.fuel with
    | none => none
    | some (_, s') => runCreates s' cs

/-- A sequence of Resolve (redirect) requests run back to back. -/
def resolveSeq : DBState → List (Str × Nat) → DBState
  | s, [] => s
  | s, c :: cs => resolveSeq (redirect_url s c.1 c.2).2 cs

/-- `canonical_url` (the `normalized_url` column) is unique across rows. -/
def normUnique (s : DBState) : Prop :=
  s.urls.Pairwise fun a b => a.normalized_url ≠ b.normalized_url

/-- The reseed chain of candidate slugs for a submitted raw URL: candidate 0
is seeded by the raw URL, candidate `k+1` by the raw URL concatenated with
candidate `k` (the `generate_random_slug(url + slug)` reseed). -/
def slugChain (url : Str) : Nat → Str
  | 0 => generate_random_slug url 8
  | k + 1 => generate_random_slug (url ++ slugChain url k) 8

/-- The access timestamps that a sequence of Resolve calls appends for the
record with id `urlId`, judged against the fixed table of URL rows (Resolve
never changes the `urls` table): the time of each call whose slug resolves
to that record and is not expired at that call's time. -/
def expectedHits (s : DBState) (urlId : Nat) : List (Str × Nat) → List Nat
  | [] => []
  | c :: cs =>
    match findBySlug s c.1 with
    | some r =>
      match r.expires_at with
      | some t =>
        if t < c.2 then expectedHits s urlId cs
        else if r.id = urlId then c.2 :: expectedHits s urlId cs
        else expectedHits s urlId cs
      | none =>
        if r.id = urlId then c.2 :: expectedHits s urlId cs
        else expectedHits s urlId cs
    | none => expectedHits s urlId cs

/-- The data `normalize_url` assembles the canonical string from: scheme (as
lower-cased by the parse), lower-cased netloc, path (empty defaulted to
`/`), params, the sorted decoded query pairs, fragment. -/
structure CanonParts where
  scheme : Str
  netloc : Str
  path : Str
  params : Str
  pairs : List QPair
  fragment : Str
deriving DecidableEq

/-- The canonical components of a URL accepted by `parse_url`. -/
def canonOf (u : Str) : Option CanonParts :=
  (parse_url u).map fun p =>
    ⟨p.scheme, lowerStr p.netloc, if p.path = [] then ['/'] else p.path,
     p.params, sortPairs (parse_qsl p.query), p.fragment⟩

/-- Facts that hold of every successful `urlsplitM` output
`(S, N, Pp, Q, F)`, read off the stages of the split. -/
structure SplitFacts (S N Pp Q F : Str) : Prop where
  scheme_facts : S ≠ [] →
    headIsAsciiAlpha S = true ∧ S.all isSchemeChar = true ∧ lowerStr S = S
  netloc_end : ∀ c ∈ N, isNetlocEnd c = false
  netloc_br : strContains N '[' = strContains N ']'
  path_shape : N ≠ [] → Pp = [] ∨ Pp.head? = some '/'
  path_no_q : ('?') ∉ Pp
  path_no_h : ('#') ∉ Pp
  clean : ∀ c ∈ S ++ N ++ Pp ++ Q ++ F, isUnsafeUrlChar c = false

/-- Invariants of the components `normalize_url` reassembles its output
from, strong enough that the reassembled string re-parses to exactly these
components.  `path_last_seg` speaks about the last `/`-separated segment of
the path, which is where `_splitparams` looks for a `;`. -/
structure CanonInv (S N P R Q F : Str) : Prop where
  scheme_ne : S ≠ []
  scheme_head : headIsAsciiAlpha S = true
  scheme_chars : S.all isSchemeChar = true
  scheme_lower : lowerStr S = S
  netloc_ne : N ≠ []
  netloc_end : ∀ c ∈ N, isNetlocEnd c = false
  netloc_br : strContains N '[' = strContains N ']'
  path_head : P.head? = some '/'
  path_no_q : ('?') ∉ P
  path_no_h : ('#') ∉ P
  params_ok : ∀ c ∈ R, c ≠ '/' ∧ c ≠ '?' ∧ c ≠ '#'
  query_no_h : ('#') ∉ Q
  clean : ∀ c ∈ S ++ N ++ P ++ R ++ Q ++ F, isUnsafeUrlChar c = false
  path_last_seg : uses_params.contains S = true →
    (';') ∉ P.reverse.takeWhile fun c => ¬ c = '/'
  params_uses : R ≠ [] → uses_params.contains S = true

/-! ## Helper lemmas -/

theorem drawSlug_length (st n : Nat) : (drawSlug st n).length = n := by
  induction n generalizing st with
  | zero => rfl
  | succ k ih => simp [drawSlug, ih]

theorem drawSlug_mem (st n : Nat) : ∀ c ∈ drawSlug st n, c ∈ BASE36_ALPHABET := by
  induction n generalizing st with
  | zero => intro c h; cases h
  | succ k ih =>
    intro c h
    simp only [drawSlug, List.mem_cons] at h
    rcases h with h | h
    · rw [h]
      exact List.get_mem _ _ _
    · exact ih _ c h

/-! ## The claims -/

/-- C10: the slug generator is a total function: for every seed string and
length it returns a string of exactly `length` symbols, each drawn from the
36-symbol alphabet `a-z0-9`, and it is deterministic — two calls with
identical seed and length return identical output. -/
theorem generate_random_slug_total_det :
    ∀ (u1 u2 : Str) (l1 l2 : Nat), u1 = u2 → l1 = l2 →
      generate_random_slug u1 l1 = generate_random_slug u2 l2 ∧
      (generate_random_slug u1 l1).length = l1 ∧
      ∀ c ∈ generate_random_slug u1 l1, c ∈ BASE36_ALPHABET := by
  intro u1 u2 l1 l2 hu hl
  subst hu; subst hl
  exact ⟨rfl, drawSlug_length _ _, drawSlug_mem _ _⟩

/-- Witness for C10 at the seed `https://example.com` and the default length
8. -/
theorem generate_random_slug_total_det_witness :
    generate_random_slug "https://example.com".data 8 =
      generate_random_slug "https://example.com".data 8 ∧
    (generate_random_slug "https://example.com".data 8).length = 8 ∧
    ∀ c ∈ generate_random_slug "https://example.com".data 8, c ∈ BASE36_ALPHABET :=
  generate_random_slug_total_det _ _ 8 8 rfl rfl

/-- C5: the claim says a body with a valid `url` but no `expiry_date` field
creates a never-expiring record; the code does
`url, expires_at = body["url"], body["expiry_date"]`, so a missing
`expiry_date` key raises `KeyError`, lands in `except Exception`, and the
handler answers HTTP 500 with nothing inserted. -/
theorem new_url_missing_expiry_key_is_500 :
    new_url emptyDB ⟨some "https://example.com".data, none⟩ 0 3 =
      some (.serverError, emptyDB) ∧
    CreateOut.statusCode .serverError = 500 ∧
    (500 = 201) = False :=
  ⟨rfl, rfl, by simp⟩

/-- C4: `normalize_url` does fail on a host-less input (here the empty
string, whose fixed-up form `http://` still has an empty netloc), but the
handler's single `except Exception` maps it to HTTP 500, not to the distinct
client-error 400 the claim (and the route's own documented 400 response)
requires. -/
theorem new_url_invalid_url_is_500_not_400 :
    parse_url "".data = none ∧
    normalize_url "".data = none ∧
    new_url emptyDB ⟨some "".data, some none⟩ 0 3 = some (.serverError, emptyDB) ∧
    CreateOut.statusCode .serverError = 500 ∧
    (500 = 400) = False :=
  ⟨rfl, rfl, rfl, rfl, by simp⟩

/-- C2 counterexample: with a record whose `expires_at` equals the current
time (so `expires_at` is set and `≤` now, which the claim says must fail
with `ExpiredError` and append nothing), the code's strict test
`expires_at < pendulum.now()` is false, so it redirects and appends an
AccessEvent. -/
theorem redirect_url_at_exact_expiry_redirects :
    redirect_url ⟨[⟨0, "abcdefgh".data, "http://a/".data, 0, some 100⟩], [], 1⟩
        "abcdefgh".data 100 =
      (.redirectTo "http://a/".data,
       ⟨[⟨0, "abcdefgh".data, "http://a/".data, 0, some 100⟩], [⟨0, 100⟩], 1⟩) ∧
    RedirectOut.redirectTo "http://a/".data ≠ RedirectOut.expired :=
  ⟨rfl, by simp⟩

/-- C2 amended: Resolve fails with `NotFoundError` when no record exists;
fails with `ExpiredError` — appending no AccessEvent — when `expires_at` is
set and is strictly less than the current time; and otherwise (including
`expires_at` exactly equal to the current time) appends exactly one
AccessEvent for the record and returns its canonical URL as the redirect
target. -/
theorem redirect_url_cases :
    ∀ (s : DBState) (slug : Str) (now : Nat),
      (findBySlug s slug = none → redirect_url s slug now = (.notFound, s)) ∧
      (∀ r t, findBySlug s slug = some r → r.expires_at = some t → t < now →
        redirect_url s slug now = (.expired, s)) ∧
      (∀ r, findBySlug s slug = some r → (∀ t, r.expires_at = some t → now ≤ t) →
        redirect_url s slug now =
          (.redirectTo r.normalized_url, appendLog s r.id now) ∧
        (appendLog s r.id now).access_logs = s.access_logs ++ [⟨r.id, now⟩]) := by
  intro s slug now
  refine ⟨?_, ?_, ?_⟩
  · intro h
    simp only [redirect_url, h]
  · intro r t hf he hlt
    simp only [redirect_url, hf, he, if_pos hlt]
  · intro r hf hle
    have happ : (appendLog s r.id now).access_logs = s.access_logs ++ [⟨r.id, now⟩] := rfl
    refine ⟨?_, happ⟩
    rcases hr : r.expires_at with _ | t
    · simp only [redirect_url, hf, hr]
    · simp only [redirect_url, hf, hr, if_neg (Nat.not_lt.mpr (hle t hr))]

/-- Witness for C2's amended theorem: a missing slug 404s, an expired slug
410s without logging, a live slug redirects and logs once. -/
theorem redirect_url_cases_witness :
    redirect_url emptyDB "zzzzzzzz".data 0 = (.notFound, emptyDB) ∧
    redirect_url ⟨[⟨0, "aaaaaaaa".data, "http://b/".data, 0, some 3⟩], [], 1⟩
        "aaaaaaaa".data 9 =
      (.expired, ⟨[⟨0, "aaaaaaaa".data, "http://b/".data, 0, some 3⟩], [], 1⟩) ∧
    redirect_url ⟨[⟨0, "aaaaaaaa".data, "http://b/".data, 0, some 9⟩], [], 1⟩
        "aaaaaaaa".data 3 =
      (.redirectTo "http://b/".data,
       appendLog ⟨[⟨0, "aaaaaaaa".data, "http://b/".data, 0, some 9⟩], [], 1⟩ 0 3) :=
  ⟨(redirect_url_cases emptyDB "zzzzzzzz".data 0).1 rfl,
   (redirect_url_cases ⟨[⟨0, "aaaaaaaa".data, "http://b/".data, 0, some 3⟩], [], 1⟩
       "aaaaaaaa".data 9).2.1
     ⟨0, "aaaaaaaa".data, "http://b/".data, 0, some 3⟩ 3 (by decide) rfl (by decide),
   ((redirect_url_cases ⟨[⟨0, "aaaaaaaa".data, "http://b/".data, 0, some 9⟩], [], 1⟩
       "aaaaaaaa".data 3).2.2
     ⟨0, "aaaaaaaa".data, "http://b/".data, 0, some 9⟩ (by decide)
     (by intro t ht; cases ht; decide)).1⟩

/-- C7 counterexample: the dedup check runs against a store without the
canonical URL, another creation lands first, and the handler's `INSERT` hits
the uniqueness constraint; the code has no re-read — the exception falls
into `except Exception` and the caller gets HTTP 500, not the now-existing
record. -/
theorem new_url_dup_insert_returns_500 :
    new_urlAt emptyDB ⟨[⟨7, "zzzzzzzz".data, "http://a/b".data, 0, none⟩], [], 8⟩
        ⟨some "http://a/b".data, some none⟩ 1 1 =
      some (.serverError, ⟨[⟨7, "zzzzzzzz".data, "http://a/b".data, 0, none⟩], [], 8⟩) ∧
    CreateOut.statusCode .serverError = 500 ∧
    CreateOut.serverError ≠ CreateOut.existed "zzzzzzzz".data := by
  refine ⟨by decide, rfl, by simp⟩

/-- C7 amended: when the insert of Create reports a uniqueness-constraint
violation (a concurrent creation won the race after the dedup check), the
handler propagates it through `except Exception`: the caller receives the
opaque HTTP 500 server error, no record is returned and the store is left
as the insert found it — there is no re-read of the now-existing record. -/
theorem new_url_dup_insert_propagates :
    ∀ (sCheck sIns : DBState) (b : Body) (now fuel : Nat) (url : Str)
      (e : Option Nat) (nurl slug : Str),
      b.url = some url → b.expiry_date = some e →
      normalize_url url = some nurl →
      findByNorm sCheck nurl = none →
      findFreeSlug sCheck url fuel (generate_random_slug url 8) = some slug →
      insertUrl sIns slug nurl now e = none →
      new_urlAt sCheck sIns b now fuel = some (.serverError, sIns) ∧
      CreateOut.statusCode .serverError = 500 := by
  intro sCheck sIns b now fuel url e nurl slug hu he hn hd hs hi
  refine ⟨?_, rfl⟩
  simp only [new_urlAt, hu, he, hn, hd, hs, hi]

/-- Witness for C7's amended theorem at a concrete raced pair of stores. -/
theorem new_url_dup_insert_propagates_witness :
    new_urlAt emptyDB ⟨[⟨3, "qqqqqqqq".data, "http://c/d".data, 5, none⟩], [], 4⟩
        ⟨some "http://c/d".data, some (some 9)⟩ 6 2 =
      some (.serverError, ⟨[⟨3, "qqqqqqqq".data, "http://c/d".data, 5, none⟩], [], 4⟩) :=
  (new_url_dup_insert_propagates emptyDB _ _ 6 2 "http://c/d".data (some 9)
    "http://c/d".data (generate_random_slug "http://c/d".data 8)
    rfl rfl (by decide) rfl (by decide) (by decide)).1

theorem insertUrl_eq_some {s : DBState} {slug nurl : Str} {now : Nat}
    {e : Option Nat} {s' : DBState} (h : insertUrl s slug nurl now e = some s') :
    (∀ r ∈ s.urls, r.slug ≠ slug ∧ r.normalized_url ≠ nurl) ∧
    s'.urls = s.urls ++ [⟨s.nextId, slug, nurl, now, e⟩] ∧
    s'.access_logs = s.access_logs := by
  unfold insertUrl at h
  split at h
  · cases h
  · rename_i hany
    cases h
    refine ⟨?_, rfl, rfl⟩
    intro r hr
    simp only [List.any_eq_true, decide_eq_true_eq, not_exists, not_and, not_or] at hany
    have := hany r hr
    tauto

theorem new_url_preserves_normUnique (s : DBState) (b : Body) (now fuel : Nat)
    (out : CreateOut) (s' : DBState) (hU : normUnique s)
    (h : new_url s b now fuel = some (out, s')) : normUnique s' := by
  unfold new_url new_urlAt at h
  split at h
  · cases h; exact hU
  split at h
  · cases h; exact hU
  split at h
  · cases h; exact hU
  split at h
  · cases h; exact hU
  split at h
  · cases h
  rename_i nurl _ slug _
  split at h
  · cases h; exact hU
  · rename_i s'' hins
    cases h
    obtain ⟨hfresh, hurls, _⟩ := insertUrl_eq_some hins
    unfold normUnique
    rw [hurls]
    rw [List.pairwise_append]
    refine ⟨hU, List.pairwise_singleton _ _, ?_⟩
    intro a ha b hb
    simp only [List.mem_singleton] at hb
    subst hb
    exact (hfresh a ha).2

theorem runCreates_preserves_normUnique (calls : List CreateCall) :
    ∀ (s s' : DBState), normUnique s → runCreates s calls = some s' → normUnique s' := by
  induction calls with
  | nil => intro s s' hU h; cases h; exact hU
  | cons c cs ih =>
    intro s s' hU h
    unfold runCreates at h
    split at h
    · cases h
    · rename_i o s1 hstep
      exact ih s1 s' (new_url_preserves_normUnique s c.body c.now c.fuel o s1 hU hstep) h

/-- C1: submitting a URL whose normalized form equals the `canonical_url`
(`normalized_url` column) of an existing record makes Create return that
record's slug with the "already existed" HTTP 200 (not 201), inserting
nothing and mutating nothing; and `normalized_url` stays unique across all
records under any sequence of Create calls. -/
theorem new_url_dedup_and_unique :
    (∀ (s : DBState) (b : Body) (now fuel : Nat) (url : Str) (e : Option Nat)
       (nurl : Str) (r : UrlRecord),
       b.url = some url → b.expiry_date = some e →
       normalize_url url = some nurl → findByNorm s nurl = some r →
       new_url s b now fuel = some (.existed r.slug, s) ∧
       CreateOut.statusCode (.existed r.slug) = 200 ∧
       CreateOut.statusCode (.existed r.slug) ≠ 201) ∧
    (∀ (s : DBState) (calls : List CreateCall) (s' : DBState),
       normUnique s → runCreates s calls = some s' → normUnique s') := by
  refine ⟨?_, fun s calls s' hU h => runCreates_preserves_normUnique calls s s' hU h⟩
  intro s b now fuel url e nurl r hu he hn hd
  have h1 : new_url s b now fuel = some (.existed r.slug, s) := by
    simp only [new_url, new_urlAt, hu, he, hn, hd]
  exact ⟨h1, rfl, by simp [CreateOut.statusCode]⟩

/-- Witness for C1: a store holding `http://a/` and a resubmission of the
equivalent spelling `HTTP://A` gets the stored slug back with 200 and the
store unchanged; a two-call sequence from the empty store keeps
`normalized_url` unique. -/
theorem new_url_dedup_and_unique_witness :
    new_url ⟨[⟨0, "abcdefgh".data, "http://a/".data, 0, none⟩], [], 1⟩
        ⟨some "HTTP://A".data, some none⟩ 7 3 =
      some (.existed "abcdefgh".data,
        ⟨[⟨0, "abcdefgh".data, "http://a/".data, 0, none⟩], [], 1⟩) ∧
    normUnique (resolveSeq emptyDB []) ∧
    ∀ s', runCreates emptyDB
        [⟨⟨some "http://a/".data, some none⟩, 0, 1⟩] = some s' → normUnique s' := by
  refine ⟨?_, List.Pairwise.nil,
    fun s' h => (new_url_dedup_and_unique).2 emptyDB _ s' List.Pairwise.nil h⟩
  exact (new_url_dedup_and_unique).1
    ⟨[⟨0, "abcdefgh".data, "http://a/".data, 0, none⟩], [], 1⟩
    ⟨some "HTTP://A".data, some none⟩ 7 3 "HTTP://A".data none "http://a/".data
    ⟨0, "abcdefgh".data, "http://a/".data, 0, none⟩
    rfl rfl (by decide) (by decide) |>.1

theorem findFreeSlug_chain (s : DBState) (url : Str) :
    ∀ (fuel k : Nat) (slug : Str),
      findFreeSlug s url fuel (slugChain url k) = some slug →
      slugTaken s slug = false ∧
      ∃ m, k ≤ m ∧ slug = slugChain url m ∧
        ∀ j, k ≤ j → j < m → slugTaken s (slugChain url j) = true := by
  intro fuel
  induction fuel with
  | zero =>
    intro k slug h
    unfold findFreeSlug at h
    split at h
    · cases h
    · rename_i htk
      cases h
      exact ⟨Bool.eq_false_iff.mpr htk, k, Nat.le_refl k, rfl,
        fun j hkj hjk => absurd (Nat.lt_of_le_of_lt hkj hjk) (Nat.lt_irrefl k)⟩
  | succ n ih =>
    intro k slug h
    unfold findFreeSlug at h
    split at h
    · rename_i htk
      have h' : findFreeSlug s url n (slugChain url (k + 1)) = some slug := h
      obtain ⟨hfree, m, hkm, hsl, hall⟩ := ih (k + 1) slug h'
      refine ⟨hfree, m, Nat.le_trans (Nat.le_succ k) hkm, hsl, ?_⟩
      intro j hkj hjm
      rcases Nat.eq_or_lt_of_le hkj with hjk | hlt
      · rw [← hjk]; exact htk
      · exact hall j hlt hjm
    · rename_i htk
      cases h
      exact ⟨Bool.eq_false_iff.mpr htk, k, Nat.le_refl k, rfl,
        fun j hkj hjk => absurd (Nat.lt_of_le_of_lt hkj hjk) (Nat.lt_irrefl k)⟩

theorem new_url_created_inv (s : DBState) (b : Body) (now fuel : Nat)
    (sl : Str) (s' : DBState) (h : new_url s b now fuel = some (.created sl, s')) :
    ∃ url e nurl, b.url = some url ∧ b.expiry_date = some e ∧
      normalize_url url = some nurl ∧ findByNorm s nurl = none ∧
      findFreeSlug s url fuel (generate_random_slug url 8) = some sl ∧
      insertUrl s sl nurl now e = some s' := by
  unfold new_url new_urlAt at h
  split at h
  · cases h
  rename_i url hurl
  split at h
  · cases h
  rename_i e he
  split at h
  · cases h
  rename_i nurl hn
  split at h
  · cases h
  rename_i hd
  split at h
  · cases h
  rename_i slg hs
  split at h
  · cases h
  rename_i s'' hins
  cases h
  exact ⟨url, e, nurl, hurl, he, hn, hd, hs, hins⟩

/-- C3: on a first-time submission Create seeds the candidate slug from the
raw, non-normalized URL string; whenever the candidate is taken it reseeds
from the raw URL concatenated with the previous candidate, so the slug the
loop returns is the first free element of that reseed chain; and two
distinct raw URLs whose initial candidates collide still produce two
records with distinct slugs. -/
theorem new_url_slug_reseed_loop :
    (∀ (s : DBState) (url : Str) (fuel : Nat) (slug : Str),
       findFreeSlug s url fuel (generate_random_slug url 8) = some slug →
       slugTaken s slug = false ∧
       ∃ m, slug = slugChain url m ∧
         ∀ j, j < m → slugTaken s (slugChain url j) = true) ∧
    (∀ (u1 u2 : Str) (e1 e2 : Option Nat) (n1 n2 f1 f2 : Nat)
       (sl1 sl2 : Str) (s1 s2 : DBState),
       u1 ≠ u2 → generate_random_slug u1 8 = generate_random_slug u2 8 →
       new_url emptyDB ⟨some u1, some e1⟩ n1 f1 = some (.created sl1, s1) →
       new_url s1 ⟨some u2, some e2⟩ n2 f2 = some (.created sl2, s2) →
       sl1 ≠ sl2 ∧ s2.urls.map (fun r => r.slug) = [sl1, sl2]) := by
  constructor
  · intro s url fuel slug h
    have h0 : findFreeSlug s url fuel (slugChain url 0) = some slug := h
    obtain ⟨hfree, m, _, hsl, hall⟩ := findFreeSlug_chain s url fuel 0 slug h0
    exact ⟨hfree, m, hsl, fun j hj => hall j (Nat.zero_le j) hj⟩
  · intro u1 u2 e1 e2 n1 n2 f1 f2 sl1 sl2 s1 s2 _ _ h1 h2
    obtain ⟨url1, ee1, nurl1, hbu1, _, _, _, _, hins1⟩ := new_url_created_inv _ _ _ _ _ _ h1
    obtain ⟨url2, ee2, nurl2, hbu2, _, _, _, _, hins2⟩ := new_url_created_inv _ _ _ _ _ _ h2
    obtain ⟨_, hurls1, _⟩ := insertUrl_eq_some hins1
    obtain ⟨hfresh2, hurls2, _⟩ := insertUrl_eq_some hins2
    have hrec1 : (⟨emptyDB.nextId, sl1, nurl1, n1, ee1⟩ : UrlRecord) ∈ s1.urls := by
      rw [hurls1]; simp [emptyDB]
    have hne : sl1 ≠ sl2 := by
      have := (hfresh2 _ hrec1).1
      simpa using this
    refine ⟨hne, ?_⟩
    rw [hurls2, hurls1]
    simp [emptyDB]

/-- Witness for C3: the raw URLs `http://x/Aa` and `http://x/BB` are
distinct, normalize differently, and seed the same initial candidate slug;
creating both still yields two records with distinct slugs, the second one
found by reseeding with the raw URL plus the previous candidate. -/
theorem new_url_slug_reseed_loop_witness :
    generate_random_slug "http://x/Aa".data 8 ≠
      generate_random_slug ("http://x/BB".data ++ generate_random_slug "http://x/BB".data 8) 8 ∧
    (⟨[⟨0, generate_random_slug "http://x/Aa".data 8, "http://x/Aa".data, 100, none⟩,
       ⟨1, generate_random_slug ("http://x/BB".data ++ generate_random_slug "http://x/BB".data 8) 8,
          "http://x/BB".data, 101, none⟩], [], 2⟩ : DBState).urls.map (fun r => r.slug) =
      [generate_random_slug "http://x/Aa".data 8,
       generate_random_slug ("http://x/BB".data ++ generate_random_slug "http://x/BB".data 8) 8] :=
  new_url_slug_reseed_loop.2 "http://x/Aa".data "http://x/BB".data none none 100 101 3 3
    (generate_random_slug "http://x/Aa".data 8)
    (generate_random_slug ("http://x/BB".data ++ generate_random_slug "http://x/BB".data 8) 8)
    ⟨[⟨0, generate_random_slug "http://x/Aa".data 8, "http://x/Aa".data, 100, none⟩], [], 1⟩
    ⟨[⟨0, generate_random_slug "http://x/Aa".data 8, "http://x/Aa".data, 100, none⟩,
      ⟨1, generate_random_slug ("http://x/BB".data ++ generate_random_slug "http://x/BB".data 8) 8,
         "http://x/BB".data, 101, none⟩], [], 2⟩
    (by decide) (by decide) (by decide) (by decide)

theorem redirect_url_urls_eq (s : DBState) (slug : Str) (now : Nat) :
    (redirect_url s slug now).2.urls = s.urls := by
  unfold redirect_url
  split
  · rfl
  · split
    · split <;> rfl
    · rfl

theorem findBySlug_urls_congr (s s' : DBState) (h : s.urls = s'.urls) (slug : Str) :
    findBySlug s slug = findBySlug s' slug := by
  unfold findBySlug
  rw [h]

theorem expectedHits_urls_congr (s s' : DBState) (h : s.urls = s'.urls)
    (urlId : Nat) (calls : List (Str × Nat)) :
    expectedHits s urlId calls = expectedHits s' urlId calls := by
  induction calls with
  | nil => rfl
  | cons c cs ih =>
    unfold expectedHits
    rw [findBySlug_urls_congr s s' h, ih]

theorem accessTimes_appendLog (s : DBState) (id' now urlId : Nat) :
    accessTimes (appendLog s id' now) urlId =
      accessTimes s urlId ++ (if id' = urlId then [now] else []) := by
  unfold accessTimes appendLog
  rw [List.filter_append, List.map_append]
  congr 1
  split
  · rename_i hid
    simp [hid]
  · rename_i hid
    simp [hid]

theorem resolveSeq_accessTimes (calls : List (Str × Nat)) :
    ∀ (s : DBState) (urlId : Nat),
      accessTimes (resolveSeq s calls) urlId =
        accessTimes s urlId ++ expectedHits s urlId calls := by
  induction calls with
  | nil => intro s urlId; simp [resolveSeq, expectedHits]
  | cons c cs ih =>
    intro s urlId
    unfold resolveSeq expectedHits
    rw [ih]
    have hurls : (redirect_url s c.1 c.2).2.urls = s.urls := redirect_url_urls_eq s c.1 c.2
    rw [expectedHits_urls_congr _ s hurls]
    rcases hf : findBySlug s c.1 with _ | r
    · rw [show (redirect_url s c.1 c.2).2 = s by unfold redirect_url; rw [hf]]
    · rcases he : r.expires_at with _ | t
      · rw [show (redirect_url s c.1 c.2).2 = appendLog s r.id c.2 by
          unfold redirect_url; rw [hf]; simp [he]]
        rw [accessTimes_appendLog]
        simp only [hf, he]
        by_cases hid : r.id = urlId
        · simp [hid, List.append_assoc]
        · simp [hid]
      · rcases Nat.lt_or_ge t c.2 with hlt | hge
        · rw [show (redirect_url s c.1 c.2).2 = s by
            unfold redirect_url; rw [hf]; simp [he, hlt]]
          simp only [hf, he, if_pos hlt]
        · rw [show (redirect_url s c.1 c.2).2 = appendLog s r.id c.2 by
            unfold redirect_url; rw [hf]; simp [he, Nat.not_lt.mpr hge]]
          rw [accessTimes_appendLog]
          simp only [hf, he, if_neg (Nat.not_lt.mpr hge)]
          by_cases hid : r.id = urlId
          · simp [hid, List.append_assoc]
          · simp [hid]

/-- C6: GetStats answers 404 when no record has the slug, and otherwise
returns the record with the full list of its AccessEvent timestamps in
insertion order; running any sequence of Resolves appends, for each
successful resolve of the record, exactly its timestamp, in call order, so
the `accessed_at` list equals the access timestamps in write order. -/
theorem get_url_stats_ordered :
    (∀ (s : DBState) (slug : Str),
       (findBySlug s slug = none → get_url_stats s slug = .notFound) ∧
       (∀ r, findBySlug s slug = some r →
          get_url_stats s slug =
            .ok r.slug r.normalized_url r.created_at r.expires_at (accessTimes s r.id))) ∧
    (∀ (s : DBState) (calls : List (Str × Nat)) (urlId : Nat),
       accessTimes (resolveSeq s calls) urlId =
         accessTimes s urlId ++ expectedHits s urlId calls) := by
  refine ⟨?_, fun s calls urlId => resolveSeq_accessTimes calls s urlId⟩
  intro s slug
  constructor
  · intro h
    unfold get_url_stats
    rw [h]
  · intro r h
    unfold get_url_stats
    rw [h]

/-- Witness for C6: a store with one record and one prior access; a missing
slug 404s, the stats of the record list its accesses, and two successful
resolves append their two timestamps in call order. -/
theorem get_url_stats_ordered_witness :
    get_url_stats ⟨[⟨0, "aaaaaaaa".data, "http://b/".data, 0, none⟩], [⟨0, 5⟩], 1⟩
        "zzzzzzzz".data = .notFound ∧
    get_url_stats ⟨[⟨0, "aaaaaaaa".data, "http://b/".data, 0, none⟩], [⟨0, 5⟩], 1⟩
        "aaaaaaaa".data =
      .ok "aaaaaaaa".data "http://b/".data 0 none
        (accessTimes ⟨[⟨0, "aaaaaaaa".data, "http://b/".data, 0, none⟩], [⟨0, 5⟩], 1⟩ 0) ∧
    accessTimes
        (resolveSeq ⟨[⟨0, "aaaaaaaa".data, "http://b/".data, 0, none⟩], [⟨0, 5⟩], 1⟩
          [("aaaaaaaa".data, 7), ("aaaaaaaa".data, 9)]) 0 =
      accessTimes ⟨[⟨0, "aaaaaaaa".data, "http://b/".data, 0, none⟩], [⟨0, 5⟩], 1⟩ 0 ++
        expectedHits ⟨[⟨0, "aaaaaaaa".data, "http://b/".data, 0, none⟩], [⟨0, 5⟩], 1⟩ 0
          [("aaaaaaaa".data, 7), ("aaaaaaaa".data, 9)] :=
  ⟨(get_url_stats_ordered.1 ⟨[⟨0, "aaaaaaaa".data, "http://b/".data, 0, none⟩], [⟨0, 5⟩], 1⟩
      "zzzzzzzz".data).1 (by decide),
   (get_url_stats_ordered.1 ⟨[⟨0, "aaaaaaaa".data, "http://b/".data, 0, none⟩], [⟨0, 5⟩], 1⟩
      "aaaaaaaa".data).2 ⟨0, "aaaaaaaa".data, "http://b/".data, 0, none⟩ (by decide),
   get_url_stats_ordered.2 ⟨[⟨0, "aaaaaaaa".data, "http://b/".data, 0, none⟩], [⟨0, 5⟩], 1⟩
     [("aaaaaaaa".data, 7), ("aaaaaaaa".data, 9)] 0⟩

/-! ## Lemmas: percent-encoding round trip -/

theorem char_toNat_valid (c : Char) :
    c.toNat < 0xD800 ∨ (0xDFFF < c.toNat ∧ c.toNat < 0x110000) :=
  c.valid

theorem utf8DecodeReplace_encode (c : Char) (bs : List Nat) :
    utf8DecodeReplace (utf8Encode c ++ bs) = c :: utf8DecodeReplace bs := by
  have hval := char_toNat_valid c
  have hofn := Char.ofNat_toNat c
  by_cases h1 : c.toNat < 0x80
  · rw [show utf8Encode c = [c.toNat] from by rw [utf8Encode, if_pos h1]]
    simp only [List.cons_append, List.nil_append]
    rw [utf8DecodeReplace.eq_def]
    dsimp only
    rw [if_pos h1, hofn]
  · by_cases h2 : c.toNat < 0x800
    · rw [show utf8Encode c = [0xC0 + c.toNat / 64, 0x80 + c.toNat % 64] from by
        rw [utf8Encode, if_neg h1, if_pos h2]]
      have hb1 : ¬ (0xC0 + c.toNat / 64 < 0x80) := by omega
      have hb2 : 0xC2 ≤ 0xC0 + c.toNat / 64 ∧ 0xC0 + c.toNat / 64 < 0xE0 := by
        constructor <;> omega
      have hc1 : isCont (0x80 + c.toNat % 64) = true := by
        simp only [isCont, decide_eq_true_eq]
        constructor <;> omega
      simp only [List.cons_append, List.nil_append]
      rw [utf8DecodeReplace.eq_def]
      dsimp only [List.headD_cons]
      rw [if_neg hb1, if_pos hb2, if_pos ⟨hc1, List.cons_ne_nil _ _⟩]
      have hv : (0xC0 + c.toNat / 64 - 0xC0) * 64 + (0x80 + c.toNat % 64 - 0x80) =
          c.toNat := by omega
      rw [hv, hofn]
    · by_cases h3 : c.toNat < 0x10000
      · rw [show utf8Encode c =
            [0xE0 + c.toNat / 4096, 0x80 + c.toNat / 64 % 64, 0x80 + c.toNat % 64] from by
          rw [utf8Encode, if_neg h1, if_neg h2, if_pos h3]]
        have hb1 : ¬ (0xE0 + c.toNat / 4096 < 0x80) := by omega
        have hb2 : ¬ (0xC2 ≤ 0xE0 + c.toNat / 4096 ∧ 0xE0 + c.toNat / 4096 < 0xE0) := by
          intro h
          omega
        have hb3 : 0xE0 ≤ 0xE0 + c.toNat / 4096 ∧ 0xE0 + c.toNat / 4096 < 0xF0 := by
          constructor <;> omega
        have hcond : isCont (0x80 + c.toNat / 64 % 64) = true ∧
            (0xE0 + c.toNat / 4096 = 0xE0 → 0xA0 ≤ 0x80 + c.toNat / 64 % 64) ∧
            (0xE0 + c.toNat / 4096 = 0xED → 0x80 + c.toNat / 64 % 64 < 0xA0) := by
          refine ⟨by simp only [isCont, decide_eq_true_eq]; constructor <;> omega, ?_, ?_⟩
          · intro he
            have hz : c.toNat / 4096 = 0 := by omega
            omega
          · intro he
            have hd : c.toNat / 4096 = 13 := by omega
            have hlt : c.toNat < 0xD800 := by
              rcases hval with h | h
              · exact h
              · omega
            omega
        have hc2 : isCont (0x80 + c.toNat % 64) = true := by
          simp only [isCont, decide_eq_true_eq]
          constructor <;> omega
        simp only [List.cons_append, List.nil_append]
        rw [utf8DecodeReplace.eq_def]
        dsimp only [List.headD_cons]
        rw [if_neg hb1, if_neg hb2, if_pos hb3, if_neg (List.cons_ne_nil _ _),
          if_neg (not_not_intro hcond)]
        rw [if_neg (List.cons_ne_nil _ _), if_neg (not_not_intro hc2)]
        have hv : (0xE0 + c.toNat / 4096 - 0xE0) * 4096 +
            (0x80 + c.toNat / 64 % 64 - 0x80) * 64 + (0x80 + c.toNat % 64 - 0x80) =
            c.toNat := by omega
        rw [hv, hofn]
      · have h4 : c.toNat < 0x110000 := by
          rcases hval with h | h
          · omega
          · exact h.2
        rw [show utf8Encode c =
            [0xF0 + c.toNat / 0x40000, 0x80 + c.toNat / 4096 % 64,
             0x80 + c.toNat / 64 % 64, 0x80 + c.toNat % 64] from by
          rw [utf8Encode, if_neg h1, if_neg h2, if_neg h3]]
        have hb1 : ¬ (0xF0 + c.toNat / 0x40000 < 0x80) := by omega
        have hb2 : ¬ (0xC2 ≤ 0xF0 + c.toNat / 0x40000 ∧
            0xF0 + c.toNat / 0x40000 < 0xE0) := by
          intro h
          omega
        have hb3 : ¬ (0xE0 ≤ 0xF0 + c.toNat / 0x40000 ∧
            0xF0 + c.toNat / 0x40000 < 0xF0) := by
          intro h
          have : c.toNat / 0x40000 < 16 := by omega
          omega
        have hb4 : 0xF0 ≤ 0xF0 + c.toNat / 0x40000 ∧ 0xF0 + c.toNat / 0x40000 < 0xF5 := by
          constructor <;> omega
        have hcond : isCont (0x80 + c.toNat / 4096 % 64) = true ∧
            (0xF0 + c.toNat / 0x40000 = 0xF0 → 0x90 ≤ 0x80 + c.toNat / 4096 % 64) ∧
            (0xF0 + c.toNat / 0x40000 = 0xF4 → 0x80 + c.toNat / 4096 % 64 < 0x90) := by
          refine ⟨by simp only [isCont, decide_eq_true_eq]; constructor <;> omega, ?_, ?_⟩
          · intro he
            have hz : c.toNat / 0x40000 = 0 := by omega
            omega
          · intro he
            have hd : c.toNat / 0x40000 = 4 := by omega
            omega
        have hc2 : isCont (0x80 + c.toNat / 64 % 64) = true := by
          simp only [isCont, decide_eq_true_eq]
          constructor <;> omega
        have hc3 : isCont (0x80 + c.toNat % 64) = true := by
          simp only [isCont, decide_eq_true_eq]
          constructor <;> omega
        simp only [List.cons_append, List.nil_append]
        rw [utf8DecodeReplace.eq_def]
        dsimp only [List.headD_cons]
        rw [if_neg hb1, if_neg hb2, if_neg hb3, if_pos hb4,
          if_neg (List.cons_ne_nil _ _), if_neg (not_not_intro hcond)]
        rw [if_neg (List.cons_ne_nil _ _), if_neg (not_not_intro hc2)]
        rw [if_neg (List.cons_ne_nil _ _), if_neg (not_not_intro hc3)]
        have hv : (0xF0 + c.toNat / 0x40000 - 0xF0) * 0x40000 +
            (0x80 + c.toNat / 4096 % 64 - 0x80) * 4096 +
            (0x80 + c.toNat / 64 % 64 - 0x80) * 64 + (0x80 + c.toNat % 64 - 0x80) =
            c.toNat := by omega
        rw [hv, hofn]

theorem utf8DecodeReplace_encodeStr (s : Str) :
    utf8DecodeReplace (utf8EncodeStr s) = s := by
  induction s with
  | nil => rfl
  | cons c t ih =>
    show utf8DecodeReplace (utf8Encode c ++ utf8EncodeStr t) = c :: t
    rw [utf8DecodeReplace_encode, ih]

theorem ne_of_toNat_ne {c d : Char} (h : c.toNat ≠ d.toNat) : c ≠ d :=
  fun hc => h (congrArg Char.toNat hc)

theorem isAlwaysSafe_toNat {c : Char} (h : isAlwaysSafe c = true) :
    c.toNat = 95 ∨ (45 ≤ c.toNat ∧ c.toNat ≤ 46) ∨ (48 ≤ c.toNat ∧ c.toNat ≤ 57) ∨
    (65 ≤ c.toNat ∧ c.toNat ≤ 90) ∨ (97 ≤ c.toNat ∧ c.toNat ≤ 122) ∨ c.toNat = 126 := by
  simp only [isAlwaysSafe, isAsciiAlpha, isAsciiDigit, Bool.or_eq_true,
    decide_eq_true_eq] at h
  rcases h with (h | h) | h | h | h | h | h
  · omega
  · omega
  · omega
  · subst h; decide
  · subst h; decide
  · subst h; decide
  · subst h; decide

theorem isAlwaysSafe_ascii {c : Char} (h : isAlwaysSafe c = true) : c.toNat < 0x80 := by
  rcases isAlwaysSafe_toNat h with h | h | h | h | h | h <;> omega

theorem utf8Encode_safe {c : Char} (h : isAlwaysSafe c = true) :
    utf8Encode c = [c.toNat] := by
  rw [utf8Encode, if_pos (isAlwaysSafe_ascii h)]

theorem hexDigitUpper_spec (n : Nat) (h : n < 16) :
    isHexDigit (hexDigitUpper n) = true ∧ hexVal (hexDigitUpper n) = n ∧
    ((48 ≤ (hexDigitUpper n).toNat ∧ (hexDigitUpper n).toNat ≤ 57) ∨
     (65 ≤ (hexDigitUpper n).toNat ∧ (hexDigitUpper n).toNat ≤ 70)) := by
  interval_cases n <;> exact ⟨by decide, by decide, by decide⟩

theorem utf8Encode_lt_256 (c : Char) : ∀ b ∈ utf8Encode c, b < 256 := by
  have hval := char_toNat_valid c
  intro b hb
  rw [utf8Encode] at hb
  by_cases h1 : c.toNat < 0x80
  · rw [if_pos h1] at hb
    simp only [List.mem_singleton] at hb
    omega
  · rw [if_neg h1] at hb
    by_cases h2 : c.toNat < 0x800
    · rw [if_pos h2] at hb
      simp only [List.mem_cons, List.not_mem_nil, or_false] at hb
      rcases hb with hb | hb <;> omega
    · rw [if_neg h2] at hb
      by_cases h3 : c.toNat < 0x10000
      · rw [if_pos h3] at hb
        simp only [List.mem_cons, List.not_mem_nil, or_false] at hb
        rcases hb with hb | hb | hb <;> omega
      · rw [if_neg h3] at hb
        simp only [List.mem_cons, List.not_mem_nil, or_false] at hb
        have h4 : c.toNat < 0x110000 := by
          rcases hval with h | h
          · omega
          · exact h.2
        have : c.toNat / 0x40000 < 5 := by omega
        rcases hb with hb | hb | hb | hb <;> omega

theorem quote_plus_chars (s : Str) :
    ∀ d ∈ quote_plus s,
      d.toNat = 37 ∨ d.toNat = 43 ∨ d.toNat = 95 ∨ (45 ≤ d.toNat ∧ d.toNat ≤ 46) ∨
      (48 ≤ d.toNat ∧ d.toNat ≤ 57) ∨ (65 ≤ d.toNat ∧ d.toNat ≤ 90) ∨
      (97 ≤ d.toNat ∧ d.toNat ≤ 122) ∨ d.toNat = 126 := by
  intro d hd
  rw [quote_plus] at hd
  simp only [List.mem_flatMap] at hd
  obtain ⟨c, _, hd⟩ := hd
  rw [quotePlusChar] at hd
  split at hd
  · rename_i hsafe
    simp only [List.mem_singleton] at hd
    subst hd
    rcases isAlwaysSafe_toNat hsafe with h | h | h | h | h | h <;> omega
  · split at hd
    · simp only [List.mem_singleton] at hd
      subst hd
      right; left; rfl
    · simp only [List.mem_flatMap, List.mem_cons, List.not_mem_nil, or_false] at hd
      obtain ⟨b, hb, hd⟩ := hd
      have hb256 := utf8Encode_lt_256 c b hb
      rcases hd with hd | hd | hd
      · subst hd; left; rfl
      · subst hd
        rcases (hexDigitUpper_spec (b / 16) (by omega)).2.2 with h | h <;> omega
      · subst hd
        rcases (hexDigitUpper_spec (b % 16) (by omega)).2.2 with h | h <;> omega

theorem quote_plus_no_eq_amp (s : Str) :
    ∀ d ∈ quote_plus s, d ≠ '=' ∧ d ≠ '&' ∧ d ≠ '#' ∧ d ≠ '?' ∧ d.toNat < 0x80 := by
  intro d hd
  have h := quote_plus_chars s d hd
  have h61 : d.toNat ≠ 61 := by omega
  have h38 : d.toNat ≠ 38 := by omega
  have h35 : d.toNat ≠ 35 := by omega
  have h63 : d.toNat ≠ 63 := by omega
  have h128 : d.toNat < 128 := by omega
  exact ⟨ne_of_toNat_ne h61, ne_of_toNat_ne h38, ne_of_toNat_ne h35,
    ne_of_toNat_ne h63, h128⟩

theorem plusToSpace_ne {d : Char} (h : ¬ d = '+') : plusToSpace d = d := by
  rw [plusToSpace, if_neg h]

theorem utb_nonpct (c : Char) (rest : Str) (hc : ¬ c = '%') :
    unquoteToBytes (c :: rest) = c.toNat :: unquoteToBytes rest := by
  rcases rest with _ | ⟨a, rest1⟩
  · simp [unquoteToBytes]
  · rcases rest1 with _ | ⟨b, rest2⟩
    · simp [unquoteToBytes]
    · simp [unquoteToBytes, hc]

theorem utb_pct_hex {a b : Char} (rest : Str) (ha : isHexDigit a = true)
    (hb : isHexDigit b = true) :
    unquoteToBytes ('%' :: a :: b :: rest) =
      (hexVal a * 16 + hexVal b) :: unquoteToBytes rest := by
  simp [unquoteToBytes, ha, hb]

theorem utb_triples (bs : List Nat) (hb : ∀ b ∈ bs, b < 256) (rest : Str) :
    unquoteToBytes
      ((bs.flatMap fun b => ['%', hexDigitUpper (b / 16), hexDigitUpper (b % 16)]).map
        plusToSpace ++ rest) = bs ++ unquoteToBytes rest := by
  induction bs with
  | nil => simp
  | cons b bs' ih =>
    have hb256 : b < 256 := hb b (List.mem_cons_self _ _)
    have h16 := hexDigitUpper_spec (b / 16) (by omega)
    have h16' := hexDigitUpper_spec (b % 16) (by omega)
    have hplus : ('+').toNat = 43 := rfl
    have hp1 : ¬ hexDigitUpper (b / 16) = '+' := by
      refine ne_of_toNat_ne ?_
      rcases h16.2.2 with h | h <;> omega
    have hp2 : ¬ hexDigitUpper (b % 16) = '+' := by
      refine ne_of_toNat_ne ?_
      rcases h16'.2.2 with h | h <;> omega
    simp only [List.flatMap_cons, List.map_append, List.map_cons, List.map_nil,
      List.append_assoc, List.cons_append, List.nil_append]
    rw [plusToSpace_ne (by decide), plusToSpace_ne hp1, plusToSpace_ne hp2]
    rw [utb_pct_hex _ h16.1 h16'.1]
    rw [ih (fun x hx => hb x (List.mem_cons_of_mem _ hx))]
    have hv : hexVal (hexDigitUpper (b / 16)) * 16 + hexVal (hexDigitUpper (b % 16)) =
        b := by
      rw [h16.2.1, h16'.2.1]
      omega
    rw [hv]

theorem utb_chunk (c : Char) (r : Str) :
    unquoteToBytes ((quotePlusChar c).map plusToSpace ++ r) =
      utf8Encode c ++ unquoteToBytes r := by
  rw [quotePlusChar]
  split
  · rename_i hsafe
    have hplus : ('+').toNat = 43 := rfl
    have hpct : ('%').toNat = 37 := rfl
    have hne : ¬ c = '+' := by
      refine ne_of_toNat_ne ?_
      rcases isAlwaysSafe_toNat hsafe with h | h | h | h | h | h <;> omega
    have hnp : ¬ c = '%' := by
      refine ne_of_toNat_ne ?_
      rcases isAlwaysSafe_toNat hsafe with h | h | h | h | h | h <;> omega
    simp only [List.map_cons, List.map_nil, List.cons_append, List.nil_append]
    rw [plusToSpace_ne hne, utb_nonpct c r hnp, utf8Encode_safe hsafe]
    rfl
  · split
    · rename_i hsp
      simp only [List.map_cons, List.map_nil, List.cons_append, List.nil_append]
      rw [show plusToSpace '+' = ' ' from rfl]
      rw [utb_nonpct ' ' r (by decide)]
      rw [hsp, show utf8Encode ' ' = [(' ').toNat] from by rw [utf8Encode]; rfl]
      rfl
    · exact utb_triples (utf8Encode c) (utf8Encode_lt_256 c) r

theorem utb_quote (s : Str) :
    unquoteToBytes ((quote_plus s).map plusToSpace) = utf8EncodeStr s := by
  induction s with
  | nil => rfl
  | cons c t ih =>
    show unquoteToBytes ((quotePlusChar c ++ quote_plus t).map plusToSpace) = _
    rw [List.map_append, utb_chunk, ih]
    rfl

theorem splitRuns_all_true (s : Str) (h : ∀ c ∈ s, isAsciiChar c = true)
    (hne : s ≠ []) : splitRuns isAsciiChar s = [(true, s)] := by
  induction s with
  | nil => exact absurd rfl hne
  | cons c t ih =>
    rcases t with _ | ⟨d, t'⟩
    · simp [splitRuns, h c (List.mem_cons_self _ _)]
    · rw [splitRuns, ih (fun x hx => h x (List.mem_cons_of_mem _ hx))
        (List.cons_ne_nil _ _)]
      rw [h c (List.mem_cons_self _ _)]
      rfl

theorem unquote_all_ascii (s : Str) (h : ∀ c ∈ s, isAsciiChar c = true) :
    unquote s = utf8DecodeReplace (unquoteToBytes s) := by
  rcases hs : s with _ | ⟨c, t⟩
  · rfl
  · rw [unquote, splitRuns_all_true (c :: t) (hs ▸ h) (List.cons_ne_nil _ _)]
    simp

theorem unquote_plus_quote_plus (s : Str) : unquote_plus (quote_plus s) = s := by
  rw [unquote_plus]
  rw [unquote_all_ascii _ ?hascii]
  case hascii =>
    intro d hd
    simp only [List.mem_map] at hd
    obtain ⟨e, he, hd⟩ := hd
    have := (quote_plus_no_eq_amp s e he).2.2.2.2
    subst hd
    rw [plusToSpace]
    split
    · decide
    · simp only [isAsciiChar, decide_eq_true_eq]
      omega
  rw [utb_quote, utf8DecodeReplace_encodeStr]

theorem splitFirst_not_mem (sep : Char) (s : Str) (h : sep ∉ s) :
    splitFirst sep s = (s, none) := by
  induction s with
  | nil => rfl
  | cons c t ih =>
    have hc : ¬ c = sep := fun hc => h (by rw [← hc]; exact List.mem_cons_self c t)
    simp [splitFirst, hc, ih (fun hm => h (List.mem_cons_of_mem _ hm))]

theorem splitFirst_append (sep : Char) (a b : Str) (h : sep ∉ a) :
    splitFirst sep (a ++ sep :: b) = (a, some b) := by
  induction a with
  | nil => simp [splitFirst]
  | cons c t ih =>
    have hc : ¬ c = sep := fun hc => h (by rw [← hc]; exact List.mem_cons_self c t)
    simp [splitFirst, hc, ih (fun hm => h (List.mem_cons_of_mem _ hm))]

theorem splitAll_not_mem (sep : Char) (s : Str) (h : sep ∉ s) :
    splitAll sep s = [s] := by
  induction s with
  | nil => rfl
  | cons c t ih =>
    have hc : ¬ c = sep := fun hc => h (by rw [← hc]; exact List.mem_cons_self c t)
    simp [splitAll, hc, ih (fun hm => h (List.mem_cons_of_mem _ hm))]

theorem splitAll_append (sep : Char) (a rest : Str) (h : sep ∉ a) :
    splitAll sep (a ++ sep :: rest) = a :: splitAll sep rest := by
  induction a with
  | nil => simp [splitAll]
  | cons c t ih =>
    have hc : ¬ c = sep := fun hc => h (by rw [← hc]; exact List.mem_cons_self c t)
    have hr := ih (fun hm => h (List.mem_cons_of_mem _ hm))
    simp only [List.cons_append, splitAll, List.append_eq, hr]
    rw [if_neg hc]

theorem splitAll_joinAmp (items : List Str) (hne : items ≠ [])
    (h : ∀ it ∈ items, ('&') ∉ it) : splitAll '&' (joinAmp items) = items := by
  induction items with
  | nil => exact absurd rfl hne
  | cons x t ih =>
    rcases t with _ | ⟨y, t'⟩
    · exact splitAll_not_mem '&' x (h x (List.mem_cons_self _ _))
    · rw [joinAmp]
      rw [splitAll_append '&' x _ (h x (List.mem_cons_self _ _))]
      rw [ih (List.cons_ne_nil _ _) (fun it hit => h it (List.mem_cons_of_mem _ hit))]

/-- The encoded form of one pair inside `urlencode`. -/
theorem parseQslItem_enc (k v : Str) :
    parseQslItem (quote_plus k ++ '=' :: quote_plus v) = some (k, v) := by
  rw [parseQslItem]
  rw [if_neg (by
    intro h
    rcases List.append_eq_nil.mp h with ⟨_, h2⟩
    exact List.cons_ne_nil _ _ h2)]
  rw [splitFirst_append '=' _ _ (fun hm => (quote_plus_no_eq_amp k '=' hm).1 rfl)]
  show some (unquote_plus (quote_plus k), unquote_plus (quote_plus v)) = some (k, v)
  rw [unquote_plus_quote_plus, unquote_plus_quote_plus]

theorem urlencode_ne_nil (p : QPair) (ps : List QPair) : urlencode (p :: ps) ≠ [] := by
  rcases ps with _ | ⟨q, ps'⟩
  · rw [urlencode]
    show joinAmp [quote_plus p.1 ++ '=' :: quote_plus p.2] ≠ []
    rw [joinAmp]
    intro h
    rcases List.append_eq_nil.mp h with ⟨_, h2⟩
    exact List.cons_ne_nil _ _ h2
  · rw [urlencode]
    show joinAmp (_ :: _ :: _) ≠ []
    rw [joinAmp]
    intro h
    rcases List.append_eq_nil.mp h with ⟨_, h2⟩
    exact List.cons_ne_nil _ _ h2

/-- Round trip: decoding an encoded query gives back exactly the pairs. -/
theorem parse_qsl_urlencode (ps : List QPair) : parse_qsl (urlencode ps) = ps := by
  rcases ps with _ | ⟨p, ps'⟩
  · rfl
  · rw [parse_qsl, if_neg (urlencode_ne_nil p ps')]
    rw [urlencode]
    rw [splitAll_joinAmp _ (by simp) ?hamp]
    case hamp =>
      intro it hit
      simp only [List.mem_map] at hit
      obtain ⟨q, _, hq⟩ := hit
      subst hq
      intro hm
      rcases List.mem_append.mp hm with hm | hm
      · exact (quote_plus_no_eq_amp q.1 '&' hm).2.1 rfl
      · rcases List.mem_cons.mp hm with hm | hm
        · exact absurd hm.symm (by decide)
        · exact (quote_plus_no_eq_amp q.2 '&' hm).2.1 rfl
    rw [List.filterMap_map]
    have key : ∀ l : List QPair,
        l.filterMap (fun q => parseQslItem (quote_plus q.1 ++ '=' :: quote_plus q.2)) = l := by
      intro l
      induction l with
      | nil => rfl
      | cons q t ih =>
        rw [List.filterMap_cons]
        rw [parseQslItem_enc]
        rw [ih]
    have hcomp : (parseQslItem ∘ fun q : QPair => quote_plus q.1 ++ '=' :: quote_plus q.2) =
        fun q : QPair => parseQslItem (quote_plus q.1 ++ '=' :: quote_plus q.2) := rfl
    rw [hcomp, key]

theorem char_toNat_inj {a b : Char} (h : a.toNat = b.toNat) : a = b := by
  rw [← Char.ofNat_toNat a, ← Char.ofNat_toNat b, h]

theorem strCmp_self : ∀ a : Str, strCmp a a = .eq := by
  intro a
  induction a with
  | nil => rfl
  | cons c t ih =>
    rw [strCmp]
    rw [if_neg (by omega), if_neg (by omega)]
    exact ih

theorem strCmp_eq_iff : ∀ a b : Str, strCmp a b = .eq ↔ a = b := by
  intro a
  induction a with
  | nil =>
    intro b
    rcases b with _ | ⟨b0, bt⟩
    · simp [strCmp]
    · simp [strCmp]
  | cons a0 t ih =>
    intro b
    rcases b with _ | ⟨b0, bt⟩
    · simp [strCmp]
    · rw [strCmp]
      by_cases h1 : a0.toNat < b0.toNat
      · rw [if_pos h1]
        constructor
        · intro h; cases h
        · intro h
          injection h with h0 _
          subst h0
          omega
      · by_cases h2 : b0.toNat < a0.toNat
        · rw [if_neg h1, if_pos h2]
          constructor
          · intro h; cases h
          · intro h
            injection h with h0 _
            subst h0
            omega
        · rw [if_neg h1, if_neg h2]
          have h0 : a0 = b0 := char_toNat_inj (by omega)
          subst h0
          rw [ih bt]
          constructor
          · intro h; rw [h]
          · intro h
            injection h

theorem strCmp_swap : ∀ a b : Str, strCmp b a = (strCmp a b).swap := by
  intro a
  induction a with
  | nil =>
    intro b
    rcases b with _ | ⟨b0, bt⟩
    · rfl
    · rfl
  | cons a0 t ih =>
    intro b
    rcases b with _ | ⟨b0, bt⟩
    · rfl
    · rw [strCmp, strCmp]
      by_cases h1 : a0.toNat < b0.toNat
      · have hn : ¬ b0.toNat < a0.toNat := by omega
        rw [if_neg hn, if_pos h1, if_pos h1]
        rfl
      · by_cases h2 : b0.toNat < a0.toNat
        · rw [if_pos h2, if_neg h1, if_pos h2]
          rfl
        · rw [if_neg h2, if_neg h1, if_neg h1, if_neg h2]
          exact ih bt

theorem strCmp_lt_trans : ∀ a b c : Str,
    strCmp a b = .lt → strCmp b c = .lt → strCmp a c = .lt := by
  intro a
  induction a with
  | nil =>
    intro b c hab hbc
    rcases b with _ | ⟨b0, bt⟩
    · cases hab
    rcases c with _ | ⟨c0, ct⟩
    · rw [strCmp] at hbc
      cases hbc
    · rfl
  | cons a0 t ih =>
    intro b c hab hbc
    rcases b with _ | ⟨b0, bt⟩
    · cases hab
    rcases c with _ | ⟨c0, ct⟩
    · rw [strCmp] at hbc
      cases hbc
    · rw [strCmp] at hab hbc ⊢
      by_cases h1 : a0.toNat < b0.toNat
      · by_cases h2 : b0.toNat < c0.toNat
        · rw [if_pos (by omega)]
        · by_cases h3 : c0.toNat < b0.toNat
          · rw [if_neg h2, if_pos h3] at hbc
            cases hbc
          · rw [if_pos (by omega)]
      · by_cases h1' : b0.toNat < a0.toNat
        · rw [if_neg h1, if_pos h1'] at hab
          cases hab
        · rw [if_neg h1, if_neg h1'] at hab
          by_cases h2 : b0.toNat < c0.toNat
          · rw [if_pos (by omega)]
          · by_cases h3 : c0.toNat < b0.toNat
            · rw [if_neg h2, if_pos h3] at hbc
              cases hbc
            · rw [if_neg h2, if_neg h3] at hbc
              rw [if_neg (by omega), if_neg (by omega)]
              exact ih bt ct hab hbc

theorem pairLe_total : ∀ p q : QPair, pairLe p q ∨ pairLe q p := by
  intro p q
  unfold pairLe pairLeB
  rcases h1 : strCmp p.1 q.1 with _ | _ | _
  · left
    rfl
  · have h1' : strCmp q.1 p.1 = .eq := by rw [strCmp_swap, h1]; rfl
    have hq : p.1 = q.1 := (strCmp_eq_iff _ _).mp h1
    rw [h1']
    rcases h2 : strCmp p.2 q.2 with _ | _ | _
    · left
      rfl
    · left
      rfl
    · have h2' : strCmp q.2 p.2 = .lt := by
        rw [strCmp_swap, h2]
        rfl
      right
      rw [h2']
  · have h1' : strCmp q.1 p.1 = .lt := by rw [strCmp_swap, h1]; rfl
    right
    rw [h1']

theorem pairLe_antisymm : ∀ p q : QPair, pairLe p q → pairLe q p → p = q := by
  intro p q hpq hqp
  unfold pairLe pairLeB at hpq hqp
  rcases h1 : strCmp p.1 q.1 with _ | _ | _
  · have h1' : strCmp q.1 p.1 = .gt := by rw [strCmp_swap, h1]; rfl
    rw [h1'] at hqp
    cases hqp
  · have hk : p.1 = q.1 := (strCmp_eq_iff _ _).mp h1
    have h1' : strCmp q.1 p.1 = .eq := by rw [strCmp_swap, h1]; rfl
    rw [h1] at hpq
    rw [h1'] at hqp
    rcases h2 : strCmp p.2 q.2 with _ | _ | _
    · have h2' : strCmp q.2 p.2 = .gt := by rw [strCmp_swap, h2]; rfl
      rw [h2'] at hqp
      cases hqp
    · have hv : p.2 = q.2 := (strCmp_eq_iff _ _).mp h2
      exact Prod.ext hk hv
    · rw [h2] at hpq
      cases hpq
  · rw [h1] at hpq
    cases hpq

theorem pairLe_trans : ∀ p q r : QPair, pairLe p q → pairLe q r → pairLe p r := by
  intro p q r hpq hqr
  unfold pairLe pairLeB at hpq hqr ⊢
  rcases h1 : strCmp p.1 q.1 with _ | _ | _
  · rcases h2 : strCmp q.1 r.1 with _ | _ | _
    · rw [strCmp_lt_trans _ _ _ h1 h2]
    · have hq : q.1 = r.1 := (strCmp_eq_iff _ _).mp h2
      rw [← hq, h1]
    · rw [h2] at hqr
      cases hqr
  · have hk : p.1 = q.1 := (strCmp_eq_iff _ _).mp h1
    rw [h1] at hpq
    rcases h2 : strCmp q.1 r.1 with _ | _ | _
    · rw [hk, h2]
    · have hq : q.1 = r.1 := (strCmp_eq_iff _ _).mp h2
      rw [h2] at hqr
      rw [hk, h2]
      rcases h3 : strCmp p.2 q.2 with _ | _ | _
      · rcases h4 : strCmp q.2 r.2 with _ | _ | _
        · rw [strCmp_lt_trans _ _ _ h3 h4]
        · have hv : q.2 = r.2 := (strCmp_eq_iff _ _).mp h4
          rw [← hv, h3]
        · rw [h4] at hqr
          cases hqr
      · have hv : p.2 = q.2 := (strCmp_eq_iff _ _).mp h3
        rw [hv]
        exact hqr
      · rw [h3] at hpq
        cases hpq
    · rw [h2] at hqr
      cases hqr
  · rw [h1] at hpq
    cases hpq

instance : IsTotal QPair pairLe := ⟨pairLe_total⟩

instance : IsTrans QPair pairLe := ⟨pairLe_trans⟩

instance : IsAntisymm QPair pairLe := ⟨pairLe_antisymm⟩

theorem sortPairs_sorted (ps : List QPair) : List.Sorted pairLe (sortPairs ps) :=
  List.sorted_insertionSort pairLe ps

theorem sortPairs_idem (ps : List QPair) : sortPairs (sortPairs ps) = sortPairs ps :=
  List.Sorted.insertionSort_eq (sortPairs_sorted ps)

/-- `order_query` is idempotent: re-encoding decodes to the same sorted
pairs, which sort to themselves. -/
theorem order_query_idem (q : Str) : order_query (order_query q) = order_query q := by
  rw [order_query, order_query, parse_qsl_urlencode, sortPairs_idem]

/-! ## Character-class lemmas for the reparse argument -/

theorem toNat_ofNat_lt {n : Nat} (h : n < 0xD800) : (Char.ofNat n).toNat = n := by
  rw [Char.ofNat, dif_pos (by unfold Nat.isValidChar; omega)]
  rfl

theorem lowerChar_toNat (c : Char) :
    (lowerChar c).toNat =
      if 65 ≤ c.toNat ∧ c.toNat ≤ 90 then c.toNat + 32 else c.toNat := by
  rw [lowerChar]
  split
  · rename_i h
    exact toNat_ofNat_lt (by omega)
  · rfl

theorem lowerChar_idem (c : Char) : lowerChar (lowerChar c) = lowerChar c := by
  apply char_toNat_inj
  rw [lowerChar_toNat, lowerChar_toNat c]
  by_cases h : 65 ≤ c.toNat ∧ c.toNat ≤ 90
  · rw [if_pos h, if_neg (by omega)]
  · rw [if_neg h, if_neg h]

theorem lowerStr_idem (s : Str) : lowerStr (lowerStr s) = lowerStr s := by
  simp only [lowerStr, List.map_map]
  exact List.map_congr_left fun c _ => lowerChar_idem c

theorem isAsciiAlpha_toNat {c : Char} (h : isAsciiAlpha c = true) :
    (97 ≤ c.toNat ∧ c.toNat ≤ 122) ∨ (65 ≤ c.toNat ∧ c.toNat ≤ 90) := by
  simpa only [isAsciiAlpha, decide_eq_true_eq] using h

theorem isAsciiAlpha_of_toNat {c : Char}
    (h : (97 ≤ c.toNat ∧ c.toNat ≤ 122) ∨ (65 ≤ c.toNat ∧ c.toNat ≤ 90)) :
    isAsciiAlpha c = true := by
  simpa only [isAsciiAlpha, decide_eq_true_eq] using h

theorem isSchemeChar_toNat {c : Char} (h : isSchemeChar c = true) :
    (97 ≤ c.toNat ∧ c.toNat ≤ 122) ∨ (65 ≤ c.toNat ∧ c.toNat ≤ 90) ∨
    (48 ≤ c.toNat ∧ c.toNat ≤ 57) ∨ c.toNat = 43 ∨ c.toNat = 45 ∨ c.toNat = 46 := by
  simp only [isSchemeChar, isAsciiAlpha, isAsciiDigit, decide_eq_true_eq] at h
  rcases h with (h | h) | h | h | h | h
  · omega
  · omega
  · omega
  · subst h; decide
  · subst h; decide
  · subst h; decide

theorem isSchemeChar_of_toNat {c : Char}
    (h : (97 ≤ c.toNat ∧ c.toNat ≤ 122) ∨ (65 ≤ c.toNat ∧ c.toNat ≤ 90) ∨
      (48 ≤ c.toNat ∧ c.toNat ≤ 57) ∨ c.toNat = 43 ∨ c.toNat = 45 ∨ c.toNat = 46) :
    isSchemeChar c = true := by
  simp only [isSchemeChar, isAsciiAlpha, isAsciiDigit, decide_eq_true_eq]
  rcases h with h | h | h | h | h | h
  · exact Or.inl (Or.inl h)
  · exact Or.inl (Or.inr h)
  · exact Or.inr (Or.inl h)
  · exact Or.inr (Or.inr (Or.inl (char_toNat_inj h)))
  · exact Or.inr (Or.inr (Or.inr (Or.inl (char_toNat_inj h))))
  · exact Or.inr (Or.inr (Or.inr (Or.inr (char_toNat_inj h))))

theorem isSchemeChar_lowerChar {c : Char} (h : isSchemeChar c = true) :
    isSchemeChar (lowerChar c) = true := by
  have ht := isSchemeChar_toNat h
  have hl := lowerChar_toNat c
  apply isSchemeChar_of_toNat
  by_cases hr : 65 ≤ c.toNat ∧ c.toNat ≤ 90
  · rw [hl, if_pos hr]
    omega
  · rw [hl, if_neg hr]
    omega

theorem isAsciiAlpha_lowerChar {c : Char} (h : isAsciiAlpha c = true) :
    isAsciiAlpha (lowerChar c) = true := by
  have ht := isAsciiAlpha_toNat h
  have hl := lowerChar_toNat c
  apply isAsciiAlpha_of_toNat
  by_cases hr : 65 ≤ c.toNat ∧ c.toNat ≤ 90
  · rw [hl, if_pos hr]
    omega
  · rw [hl, if_neg hr]
    omega

theorem headIsAsciiAlpha_lowerStr {s : Str} (h : headIsAsciiAlpha s = true) :
    headIsAsciiAlpha (lowerStr s) = true := by
  rcases s with _ | ⟨c, t⟩
  · simp [headIsAsciiAlpha] at h
  · have hc : isAsciiAlpha c = true := by simpa [headIsAsciiAlpha] using h
    show headIsAsciiAlpha (lowerChar c :: lowerStr t) = true
    simpa [headIsAsciiAlpha] using isAsciiAlpha_lowerChar hc

theorem lowerChar_eq_iff_of_toNat {c d : Char} (hd : ¬ (65 ≤ d.toNat ∧ d.toNat ≤ 90))
    (hd2 : ¬ (97 ≤ d.toNat ∧ d.toNat ≤ 122)) : lowerChar c = d ↔ c = d := by
  constructor
  · intro h
    have h1 := lowerChar_toNat c
    by_cases hr : 65 ≤ c.toNat ∧ c.toNat ≤ 90
    · rw [if_pos hr, h] at h1
      exact absurd (show 97 ≤ d.toNat ∧ d.toNat ≤ 122 by omega) hd2
    · rw [if_neg hr] at h1
      exact char_toNat_inj (by rw [← h1, h])
  · intro h
    subst h
    rw [lowerChar, if_neg hd]

theorem isNetlocEnd_lowerChar (c : Char) : isNetlocEnd (lowerChar c) = isNetlocEnd c := by
  rw [isNetlocEnd, isNetlocEnd]
  apply decide_eq_decide.mpr
  rw [lowerChar_eq_iff_of_toNat (by decide) (by decide),
      lowerChar_eq_iff_of_toNat (by decide) (by decide),
      lowerChar_eq_iff_of_toNat (by decide) (by decide)]

theorem isUnsafeUrlChar_lowerChar (c : Char) :
    isUnsafeUrlChar (lowerChar c) = isUnsafeUrlChar c := by
  rw [isUnsafeUrlChar, isUnsafeUrlChar]
  apply decide_eq_decide.mpr
  rw [lowerChar_eq_iff_of_toNat (by decide) (by decide),
      lowerChar_eq_iff_of_toNat (by decide) (by decide),
      lowerChar_eq_iff_of_toNat (by decide) (by decide)]

theorem strContains_iff (s : Str) (c : Char) : strContains s c = true ↔ c ∈ s := by
  rw [strContains]
  simp

theorem strContains_eq_false {s : Str} {c : Char} (h : strContains s c = false) :
    c ∉ s := by
  intro hm
  rw [(strContains_iff s c).mpr hm] at h
  cases h

theorem strContains_lowerStr (n : Str) (d : Char) (hd : ¬ (65 ≤ d.toNat ∧ d.toNat ≤ 90))
    (hd2 : ¬ (97 ≤ d.toNat ∧ d.toNat ≤ 122)) :
    strContains (lowerStr n) d = strContains n d := by
  induction n with
  | nil => rfl
  | cons c t ih =>
    show (lowerChar c :: lowerStr t).contains d = (c :: t).contains d
    rw [List.contains_cons, List.contains_cons]
    have hih : (lowerStr t).contains d = t.contains d := ih
    rw [hih]
    have hiff := lowerChar_eq_iff_of_toNat (c := c) hd hd2
    have : (d == lowerChar c) = (d == c) := by
      rw [Bool.eq_iff_iff]
      simp only [beq_iff_eq]
      constructor
      · intro h
        exact (hiff.mp h.symm).symm
      · intro h
        exact (hiff.mpr h.symm).symm
    rw [this]

theorem schemeChar_ne_colon {c : Char} (h : isSchemeChar c = true) : c ≠ ':' := by
  have ht := isSchemeChar_toNat h
  have h58 : (':').toNat = 58 := rfl
  exact ne_of_toNat_ne (by omega)

theorem isC0_false_of_alpha {c : Char} (h : isAsciiAlpha c = true) :
    isC0ControlOrSpace c = false := by
  have ht := isAsciiAlpha_toNat h
  simp only [isC0ControlOrSpace, decide_eq_false_iff_not]
  omega

theorem isNetlocEnd_cases {c : Char} (h : isNetlocEnd c = true) :
    c = '/' ∨ c = '?' ∨ c = '#' := by
  simpa only [isNetlocEnd, decide_eq_true_eq] using h

theorem isUnsafeUrlChar_eq_false {c : Char} (h9 : c.toNat ≠ 9) (h13 : c.toNat ≠ 13)
    (h10 : c.toNat ≠ 10) : isUnsafeUrlChar c = false := by
  simp only [isUnsafeUrlChar, decide_eq_false_iff_not]
  rintro (rfl | rfl | rfl)
  · exact h9 rfl
  · exact h13 rfl
  · exact h10 rfl

/-! ## List helpers for the reparse argument -/

theorem lstripWhile_cons_false {p : Char → Bool} {c : Char} (s : Str) (h : p c = false) :
    lstripWhile p (c :: s) = c :: s := by
  simp [lstripWhile, h]

theorem findIdx_cons_ne {c d : Char} (s : Str) (h : ¬ d = c) :
    findIdx c (d :: s) = (findIdx c s).map (· + 1) := by
  simp [findIdx, h]

theorem findIdx_cons_eq (c : Char) (s : Str) : findIdx c (c :: s) = some 0 := by
  simp [findIdx]

theorem findIdx_append_not_mem (c : Char) (a b : Str) (h : c ∉ a) :
    findIdx c (a ++ c :: b) = some a.length := by
  induction a with
  | nil => simp [findIdx]
  | cons d t ih =>
    have hd : ¬ d = c := fun hd => h (by rw [hd]; exact List.mem_cons_self _ _)
    rw [List.cons_append, findIdx_cons_ne _ hd,
        ih (fun hm => h (List.mem_cons_of_mem _ hm))]
    rfl

theorem takeWhile_append_all {p : Char → Bool} {a : Str} (b : Str)
    (ha : ∀ c ∈ a, p c = true) :
    (a ++ b).takeWhile p = a ++ b.takeWhile p := by
  induction a with
  | nil => rfl
  | cons d t ih =>
    rw [List.cons_append, List.takeWhile_cons, if_pos (ha d (List.mem_cons_self _ _)),
        ih (fun c hc => ha c (List.mem_cons_of_mem _ hc)), List.cons_append]

theorem dropWhile_append_all {p : Char → Bool} {a : Str} (b : Str)
    (ha : ∀ c ∈ a, p c = true) :
    (a ++ b).dropWhile p = b.dropWhile p := by
  induction a with
  | nil => rfl
  | cons d t ih =>
    rw [List.cons_append, List.dropWhile_cons, if_pos (ha d (List.mem_cons_self _ _)),
        ih (fun c hc => ha c (List.mem_cons_of_mem _ hc))]

theorem takeWhile_cons_false {p : Char → Bool} {c : Char} (s : Str) (h : p c = false) :
    (c :: s).takeWhile p = [] := by
  rw [List.takeWhile_cons, if_neg (by simp [h])]

theorem dropWhile_cons_false {p : Char → Bool} {c : Char} (s : Str) (h : p c = false) :
    (c :: s).dropWhile p = c :: s := by
  rw [List.dropWhile_cons, if_neg (by simp [h])]

theorem mem_of_mem_takeWhile {p : Char → Bool} {l : Str} {c : Char}
    (h : c ∈ l.takeWhile p) : c ∈ l :=
  List.Sublist.mem h (List.takeWhile_sublist p)

theorem mem_of_mem_dropWhile {p : Char → Bool} {l : Str} {c : Char}
    (h : c ∈ l.dropWhile p) : c ∈ l :=
  List.Sublist.mem h (List.dropWhile_sublist p)

theorem dropWhile_shape (p : Char → Bool) (l : Str) :
    l.dropWhile p = [] ∨ ∃ c t, l.dropWhile p = c :: t ∧ p c = false := by
  induction l with
  | nil => exact Or.inl rfl
  | cons d t ih =>
    rw [List.dropWhile_cons]
    by_cases h : p d = true
    · rw [if_pos h]
      exact ih
    · rw [if_neg h]
      exact Or.inr ⟨d, t, rfl, Bool.eq_false_iff.mpr h⟩

theorem splitFirst_fst_no_sep (sep : Char) (s : Str) : sep ∉ (splitFirst sep s).1 := by
  induction s with
  | nil => simp [splitFirst]
  | cons c t ih =>
    by_cases h : c = sep
    · rw [splitFirst, if_pos h]
      simp
    · rw [splitFirst, if_neg h]
      show sep ∉ c :: (splitFirst sep t).1
      intro hm
      rcases List.mem_cons.mp hm with hm | hm
      · exact h hm.symm
      · exact ih hm

theorem splitFirst_fst_subset (sep : Char) (s : Str) :
    ∀ c ∈ (splitFirst sep s).1, c ∈ s := by
  induction s with
  | nil => simp [splitFirst]
  | cons d t ih =>
    intro c hc
    by_cases h : d = sep
    · rw [splitFirst, if_pos h] at hc
      simp at hc
    · rw [splitFirst, if_neg h] at hc
      replace hc : c ∈ d :: (splitFirst sep t).1 := hc
      rcases List.mem_cons.mp hc with hc | hc
      · exact hc ▸ List.mem_cons_self _ _
      · exact List.mem_cons_of_mem _ (ih c hc)

theorem splitFirst_snd_subset (sep : Char) (s y : Str)
    (h : (splitFirst sep s).2 = some y) : ∀ c ∈ y, c ∈ s := by
  induction s generalizing y with
  | nil => simp [splitFirst] at h
  | cons d t ih =>
    by_cases hd : d = sep
    · rw [splitFirst, if_pos hd] at h
      replace h : some t = some y := h
      injection h with h
      subst h
      exact fun c hc => List.mem_cons_of_mem _ hc
    · rw [splitFirst, if_neg hd] at h
      replace h : (splitFirst sep t).2 = some y := h
      exact fun c hc => List.mem_cons_of_mem _ (ih y h c hc)

theorem splitFirst_fst_head (sep : Char) (s : Str) :
    (splitFirst sep s).1 = [] ∨ (splitFirst sep s).1.head? = s.head? := by
  rcases s with _ | ⟨d, t⟩
  · exact Or.inl rfl
  · by_cases hd : d = sep
    · rw [splitFirst, if_pos hd]
      exact Or.inl rfl
    · rw [splitFirst, if_neg hd]
      exact Or.inr rfl

theorem splitFirst_none_not_mem (sep : Char) (s : Str)
    (h : (splitFirst sep s).2 = none) : sep ∉ s := by
  induction s with
  | nil => simp
  | cons d t ih =>
    by_cases hd : d = sep
    · rw [splitFirst, if_pos hd] at h
      exact absurd h (by simp)
    · rw [splitFirst, if_neg hd] at h
      replace h : (splitFirst sep t).2 = none := h
      intro hm
      rcases List.mem_cons.mp hm with hm | hm
      · exact hd hm.symm
      · exact ih h hm

theorem splitFirst_cons_self (sep : Char) (t : Str) :
    splitFirst sep (sep :: t) = ([], some t) := by
  rw [splitFirst, if_pos rfl]

theorem joinAmp_mem (items : List Str) (c : Char) (h : c ∈ joinAmp items) :
    c = '&' ∨ ∃ it ∈ items, c ∈ it := by
  induction items with
  | nil => simp [joinAmp] at h
  | cons x t ih =>
    rcases t with _ | ⟨y, t'⟩
    · rw [joinAmp] at h
      exact Or.inr ⟨x, List.mem_cons_self _ _, h⟩
    · rw [joinAmp] at h
      rcases List.mem_append.mp h with h | h
      · exact Or.inr ⟨x, List.mem_cons_self _ _, h⟩
      · rcases List.mem_cons.mp h with h | h
        · exact Or.inl h
        · rcases ih h with h | ⟨it, hit, hc⟩
          · exact Or.inl h
          · exact Or.inr ⟨it, List.mem_cons_of_mem _ hit, hc⟩

theorem urlencode_chars (ps : List QPair) :
    ∀ d ∈ urlencode ps, d ≠ '#' ∧ d ≠ '?' ∧ isUnsafeUrlChar d = false := by
  intro d hd
  rw [urlencode] at hd
  rcases joinAmp_mem _ _ hd with h | ⟨it, hit, hc⟩
  · subst h
    exact ⟨by decide, by decide, by decide⟩
  · rcases List.mem_map.mp hit with ⟨p, _, hp⟩
    subst hp
    have h35 : ('#').toNat = 35 := rfl
    have h63 : ('?').toNat = 63 := rfl
    rcases List.mem_append.mp hc with h | h
    · have := quote_plus_chars _ _ h
      exact ⟨ne_of_toNat_ne (by omega), ne_of_toNat_ne (by omega),
        isUnsafeUrlChar_eq_false (by omega) (by omega) (by omega)⟩
    · rcases List.mem_cons.mp h with h | h
      · subst h
        exact ⟨by decide, by decide, by decide⟩
      · have := quote_plus_chars _ _ h
        exact ⟨ne_of_toNat_ne (by omega), ne_of_toNat_ne (by omega),
          isUnsafeUrlChar_eq_false (by omega) (by omega) (by omega)⟩

/-! ## `_splitparams` structure lemmas -/

theorem splitparams_append (P R : Str) (hP : ('/') ∈ P) (hR : ('/') ∉ R)
    (hseg : (';') ∉ P.reverse.takeWhile fun c => ¬ c = '/') :
    splitparams (P ++ ';' :: R) = (P, R) := by
  have hcont : strContains (P ++ ';' :: R) '/' = true :=
    (strContains_iff _ _).mpr (List.mem_append.mpr (Or.inl hP))
  have hall : ∀ c ∈ R.reverse ++ [';'], (decide (¬ c = '/')) = true := by
    intro c hc
    rcases List.mem_append.mp hc with hc | hc
    · have hne : c ≠ '/' := fun he => hR (List.mem_reverse.mp (he ▸ hc))
      simpa using hne
    · simp only [List.mem_singleton] at hc
      subst hc
      decide
  have hrev : (P ++ ';' :: R).reverse = (R.reverse ++ [';']) ++ P.reverse := by
    rw [List.reverse_append, List.reverse_cons, List.append_assoc]
  have hTWne : (';') ∉ (P.reverse.takeWhile fun c => ¬ c = '/').reverse :=
    fun hm => hseg (List.mem_reverse.mp hm)
  rw [splitparams, if_pos hcont, hrev, takeWhile_append_all P.reverse hall,
      dropWhile_append_all P.reverse hall]
  dsimp only
  rw [List.reverse_append, List.reverse_append, List.reverse_reverse,
      List.reverse_singleton, List.singleton_append]
  rw [splitFirst_append ';' _ _ hTWne]
  show ((P.reverse.dropWhile fun c => ¬ c = '/').reverse ++
      (P.reverse.takeWhile fun c => ¬ c = '/').reverse, R) = (P, R)
  rw [← List.reverse_append, List.takeWhile_append_dropWhile, List.reverse_reverse]

theorem splitparams_no_params (P : Str) (hP : ('/') ∈ P)
    (hseg : (';') ∉ P.reverse.takeWhile fun c => ¬ c = '/') :
    splitparams P = (P, []) := by
  rw [splitparams, if_pos ((strContains_iff _ _).mpr hP)]
  dsimp only
  rw [splitFirst_not_mem ';' _ (fun hm => hseg (List.mem_reverse.mp hm))]

theorem splitparams_facts (path0 P R : Str) (hs : ('/') ∈ path0)
    (h : splitparams path0 = (P, R)) :
    P.head? = path0.head? ∧ (∀ c ∈ P, c ∈ path0) ∧
    (∀ c ∈ R, c ∈ path0 ∧ c ≠ '/') ∧
    ((';') ∉ P.reverse.takeWhile fun c => ¬ c = '/') := by
  rw [splitparams, if_pos ((strContains_iff _ _).mpr hs)] at h
  dsimp only at h
  rcases hsp : splitFirst ';' (path0.reverse.takeWhile fun c => ¬ c = '/').reverse
    with ⟨a, b⟩
  rw [hsp] at h
  rcases b with _ | b
  · replace h : (path0, ([] : Str)) = (P, R) := h
    injection h with h1 h2
    subst h1
    subst h2
    refine ⟨rfl, fun c hc => hc, fun c hc => absurd hc (List.not_mem_nil c), ?_⟩
    have hno := splitFirst_none_not_mem ';' _ (by rw [hsp])
    exact fun hm => hno (List.mem_reverse.mpr hm)
  · replace h :
        ((path0.reverse.dropWhile fun c => ¬ c = '/').reverse ++ a, b) = (P, R) := h
    injection h with h1 h2
    subst h2
    have hDWmem : ∀ c ∈ path0.reverse.dropWhile fun c => ¬ c = '/', c ∈ path0 :=
      fun c hc => List.mem_reverse.mp (mem_of_mem_dropWhile hc)
    have haTW : ∀ c ∈ a, c ∈ path0.reverse.takeWhile fun c => ¬ c = '/' := by
      intro c hc
      exact List.mem_reverse.mp (splitFirst_fst_subset ';' _ c (by rw [hsp]; exact hc))
    have hbTW : ∀ c ∈ b, c ∈ path0.reverse.takeWhile fun c => ¬ c = '/' := by
      intro c hc
      exact List.mem_reverse.mp (splitFirst_snd_subset ';' _ b (by rw [hsp]) c hc)
    have hTWp : ∀ c ∈ path0.reverse.takeWhile fun c => ¬ c = '/', ¬ c = '/' := by
      intro c hc
      simpa using List.mem_takeWhile_imp hc
    have hDWne : (path0.reverse.dropWhile fun c => ¬ c = '/') ≠ [] := by
      intro hnil
      have := List.dropWhile_eq_nil_iff.mp hnil '/' (List.mem_reverse.mpr hs)
      simp at this
    rcases dropWhile_shape (fun c => ¬ c = '/') path0.reverse with hnil | ⟨d, t, hdt, hd⟩
    · exact absurd hnil hDWne
    have hd' : d = '/' := by simpa using hd
    subst hd'
    subst h1
    refine ⟨?_, ?_, ?_, ?_⟩
    · have hsplitP : (path0.reverse.dropWhile fun c => ¬ c = '/').reverse ++
          (path0.reverse.takeWhile fun c => ¬ c = '/').reverse = path0 := by
        rw [← List.reverse_append, List.takeWhile_append_dropWhile, List.reverse_reverse]
      conv_rhs => rw [← hsplitP]
      rw [List.head?_append, List.head?_append]
      obtain ⟨x, hx⟩ :
          ∃ x, (path0.reverse.dropWhile fun c => ¬ c = '/').reverse.head? = some x := by
        rcases hh : (path0.reverse.dropWhile fun c => ¬ c = '/').reverse.head?
          with _ | x
        · rw [List.head?_eq_none_iff, List.reverse_eq_nil_iff] at hh
          exact absurd hh hDWne
        · exact ⟨x, rfl⟩
      rw [hx]
      rfl
    · intro c hc
      rcases List.mem_append.mp hc with hc | hc
      · exact hDWmem c (List.mem_reverse.mp hc)
      · exact List.mem_reverse.mp (mem_of_mem_takeWhile (haTW c hc))
    · intro c hc
      have hcT := hbTW c hc
      exact ⟨List.mem_reverse.mp (mem_of_mem_takeWhile hcT), hTWp c hcT⟩
    · have hPrev : ((path0.reverse.dropWhile fun c => ¬ c = '/').reverse ++ a).reverse
          = a.reverse ++ path0.reverse.dropWhile fun c => ¬ c = '/' := by
        rw [List.reverse_append, List.reverse_reverse]
      have hallA : ∀ c ∈ a.reverse, (decide (¬ c = '/')) = true := by
        intro c hc
        have : ¬ c = '/' := hTWp c (haTW c (List.mem_reverse.mp hc))
        simpa using this
      rw [hPrev, takeWhile_append_all _ hallA, hdt,
          takeWhile_cons_false _ (by simp), List.append_nil]
      intro hm
      have hmA : (';') ∈ a := List.mem_reverse.mp hm
      have hno := splitFirst_fst_no_sep ';'
        ((path0.reverse.takeWhile fun c => ¬ c = '/').reverse)
      rw [hsp] at hno
      exact hno hmA

/-! ## `urlsplit` output facts -/

theorem headIsAsciiAlpha_take {w : Str} {i : Nat} (hi : 0 < i)
    (h : headIsAsciiAlpha w = true) : headIsAsciiAlpha (w.take i) = true := by
  rcases w with _ | ⟨c, t⟩
  · simp [headIsAsciiAlpha] at h
  · rcases i with _ | j
    · omega
    · simpa [headIsAsciiAlpha, List.take_succ_cons] using h

theorem all_schemeChar_lowerStr {T : Str} (h : T.all isSchemeChar = true) :
    (lowerStr T).all isSchemeChar = true := by
  rw [List.all_eq_true] at h ⊢
  intro x hx
  rcases List.mem_map.mp hx with ⟨c, hc, rfl⟩
  exact isSchemeChar_lowerChar (h c hc)

theorem stage2_path_subset (X : Str) :
    ∀ c ∈ (splitFirst '?' (splitFirst '#' X).1).1, c ∈ X :=
  fun c hc => splitFirst_fst_subset '#' X c (splitFirst_fst_subset '?' _ c hc)

theorem stage2_query_subset (X : Str) :
    ∀ c ∈ ((splitFirst '?' (splitFirst '#' X).1).2).getD [], c ∈ X := by
  intro c hc
  rcases hq : (splitFirst '?' (splitFirst '#' X).1).2 with _ | y
  · rw [hq] at hc
    simp at hc
  · rw [hq] at hc
    replace hc : c ∈ y := hc
    exact splitFirst_fst_subset '#' X c (splitFirst_snd_subset '?' _ y hq c hc)

theorem stage2_frag_subset (X : Str) :
    ∀ c ∈ ((splitFirst '#' X).2).getD [], c ∈ X := by
  intro c hc
  rcases hq : (splitFirst '#' X).2 with _ | y
  · rw [hq] at hc
    simp at hc
  · rw [hq] at hc
    replace hc : c ∈ y := hc
    exact splitFirst_snd_subset '#' X y hq c hc

theorem stage2_path_no_q (X : Str) : ('?') ∉ (splitFirst '?' (splitFirst '#' X).1).1 :=
  splitFirst_fst_no_sep '?' _

theorem stage2_path_no_h (X : Str) : ('#') ∉ (splitFirst '?' (splitFirst '#' X).1).1 :=
  fun hm => splitFirst_fst_no_sep '#' X (splitFirst_fst_subset '?' _ '#' hm)

theorem stage2_path_shape (X : Str)
    (hX : X = [] ∨ ∃ d t, X = d :: t ∧ isNetlocEnd d = true) :
    (splitFirst '?' (splitFirst '#' X).1).1 = [] ∨
    (splitFirst '?' (splitFirst '#' X).1).1.head? = some '/' := by
  rcases hX with rfl | ⟨d, t, rfl, hd⟩
  · exact Or.inl rfl
  · rcases isNetlocEnd_cases hd with rfl | rfl | rfl
    · rcases hfp : (splitFirst '#' ('/' :: t)).1 with _ | ⟨e, f2⟩
      · exact Or.inl rfl
      · rcases splitFirst_fst_head '#' ('/' :: t) with h1 | h1
        · rw [hfp] at h1
          cases h1
        · rw [hfp] at h1
          replace h1 : some e = some '/' := h1
          injection h1 with h1
          subst h1
          rw [splitFirst, if_neg (by decide : ¬ ('/' : Char) = '?')]
          exact Or.inr rfl
    · rcases hfp : (splitFirst '#' ('?' :: t)).1 with _ | ⟨e, f2⟩
      · exact Or.inl rfl
      · rcases splitFirst_fst_head '#' ('?' :: t) with h1 | h1
        · rw [hfp] at h1
          cases h1
        · rw [hfp] at h1
          replace h1 : some e = some '?' := h1
          injection h1 with h1
          subst h1
          rw [splitFirst_cons_self]
          exact Or.inl rfl
    · rw [splitFirst_cons_self]
      exact Or.inl rfl

theorem urlsplitM_stage2 (Sv restv S N Pp Q F : Str)
    (hSf : Sv ≠ [] → headIsAsciiAlpha Sv = true ∧ Sv.all isSchemeChar = true ∧
      lowerStr Sv = Sv)
    (hSc : ∀ c ∈ Sv, isUnsafeUrlChar c = false)
    (hrc : ∀ c ∈ restv, isUnsafeUrlChar c = false)
    (h : (let np :=
            if startsWith2Slash restv then
              ((restv.drop 2).takeWhile fun c => ¬ isNetlocEnd c,
               (restv.drop 2).dropWhile fun c => ¬ isNetlocEnd c)
            else (([] : Str), restv)
          if (strContains np.1 '[' ∧ ¬ strContains np.1 ']') ∨
             (strContains np.1 ']' ∧ ¬ strContains np.1 '[') then
            (none : Option (Str × Str × Str × Str × Str))
          else
            let fp := splitFirst '#' np.2
            let fragment := fp.2.getD []
            let qp := splitFirst '?' fp.1
            let query := qp.2.getD []
            some (Sv, np.1, qp.1, query, fragment)) = some (S, N, Pp, Q, F)) :
    SplitFacts S N Pp Q F := by
  dsimp only at h
  by_cases hsw : startsWith2Slash restv = true
  · rw [if_pos hsw] at h
    split at h
    · exact absurd h (by simp)
    · rename_i hbr
      dsimp only at h hbr
      simp only [Option.some.injEq, Prod.mk.injEq] at h
      obtain ⟨rfl, rfl, rfl, rfl, rfl⟩ := h
      have hXshape : ((restv.drop 2).dropWhile fun c => ¬ isNetlocEnd c) = [] ∨
          ∃ d t, ((restv.drop 2).dropWhile fun c => ¬ isNetlocEnd c) = d :: t ∧
            isNetlocEnd d = true := by
        rcases dropWhile_shape (fun c => ¬ isNetlocEnd c) (restv.drop 2)
          with h1 | ⟨d, t, h1, h2⟩
        · exact Or.inl h1
        · exact Or.inr ⟨d, t, h1, by simpa using h2⟩
      refine ⟨hSf, ?_, ?_, ?_, stage2_path_no_q _, stage2_path_no_h _, ?_⟩
      · intro c hc
        have := List.mem_takeWhile_imp hc
        simpa using this
      · cases hA : strContains ((restv.drop 2).takeWhile fun c => ¬ isNetlocEnd c) '['
          <;> cases hB : strContains ((restv.drop 2).takeWhile fun c => ¬ isNetlocEnd c) ']'
        · rfl
        · exact absurd
            (Or.inr ⟨hB, fun hx => by rw [hx] at hA; exact Bool.noConfusion hA⟩) hbr
        · exact absurd
            (Or.inl ⟨hA, fun hx => by rw [hx] at hB; exact Bool.noConfusion hB⟩) hbr
        · rfl
      · intro _
        exact stage2_path_shape _ hXshape
      · intro c hc
        simp only [List.mem_append] at hc
        rcases hc with ((((hc | hc) | hc) | hc) | hc)
        · exact hSc c hc
        · exact hrc c (List.mem_of_mem_drop (mem_of_mem_takeWhile hc))
        · exact hrc c (List.mem_of_mem_drop (mem_of_mem_dropWhile (stage2_path_subset _ c hc)))
        · exact hrc c (List.mem_of_mem_drop (mem_of_mem_dropWhile (stage2_query_subset _ c hc)))
        · exact hrc c (List.mem_of_mem_drop (mem_of_mem_dropWhile (stage2_frag_subset _ c hc)))
  · rw [if_neg hsw] at h
    split at h
    · exact absurd h (by simp)
    · rename_i hbr
      dsimp only at h hbr
      simp only [Option.some.injEq, Prod.mk.injEq] at h
      obtain ⟨rfl, rfl, rfl, rfl, rfl⟩ := h
      refine ⟨hSf, ?_, rfl, ?_, stage2_path_no_q _, stage2_path_no_h _, ?_⟩
      · intro c hc
        exact absurd hc (List.not_mem_nil c)
      · intro hne
        exact absurd rfl hne
      · intro c hc
        simp only [List.mem_append] at hc
        rcases hc with ((((hc | hc) | hc) | hc) | hc)
        · exact hSc c hc
        · exact absurd hc (List.not_mem_nil c)
        · exact hrc c (stage2_path_subset _ c hc)
        · exact hrc c (stage2_query_subset _ c hc)
        · exact hrc c (stage2_frag_subset _ c hc)

theorem urlsplitM_facts (u0 S N Pp Q F : Str)
    (h : urlsplitM u0 = some (S, N, Pp, Q, F)) : SplitFacts S N Pp Q F := by
  simp only [urlsplitM] at h
  set w := (lstripWhile isC0ControlOrSpace u0).filter (fun c => ¬ isUnsafeUrlChar c)
    with hw
  have hwc : ∀ c ∈ w, isUnsafeUrlChar c = false := by
    intro c hc
    rw [hw] at hc
    have := List.of_mem_filter hc
    simpa using this
  rcases hf : findIdx ':' w with _ | i
  · rw [hf] at h
    dsimp only at h
    exact urlsplitM_stage2 [] w S N Pp Q F (fun hne => absurd rfl hne)
      (fun c hc => absurd hc (List.not_mem_nil c)) hwc h
  · rw [hf] at h
    dsimp only at h
    by_cases hcond : 0 < i ∧ headIsAsciiAlpha w = true ∧ (w.take i).all isSchemeChar = true
    · rw [if_pos hcond] at h
      refine urlsplitM_stage2 (lowerStr (w.take i)) (w.drop (i + 1)) S N Pp Q F ?_ ?_ ?_ h
      · intro _
        exact ⟨headIsAsciiAlpha_lowerStr (headIsAsciiAlpha_take hcond.1 hcond.2.1),
          all_schemeChar_lowerStr hcond.2.2, lowerStr_idem _⟩
      · intro c hc
        rcases List.mem_map.mp hc with ⟨d, hd, rfl⟩
        rw [isUnsafeUrlChar_lowerChar]
        exact hwc d (List.mem_of_mem_take hd)
      · intro c hc
        exact hwc c (List.mem_of_mem_drop hc)
    · rw [if_neg hcond] at h
      exact urlsplitM_stage2 [] w S N Pp Q F (fun hne => absurd rfl hne)
        (fun c hc => absurd hc (List.not_mem_nil c)) hwc h

/-! ## Exact re-parse of an unparsed URL -/

theorem urlsplitM_exact (S N url tail : Str)
    (hS_ne : S ≠ []) (hS_head : headIsAsciiAlpha S = true)
    (hS_chars : S.all isSchemeChar = true) (hS_low : lowerStr S = S)
    (hN : ∀ c ∈ N, isNetlocEnd c = false)
    (hbr : strContains N '[' = strContains N ']')
    (hurl : url.head? = some '/')
    (hclean : ∀ c ∈ S ++ N ++ url ++ tail, isUnsafeUrlChar c = false) :
    urlsplitM (S ++ ':' :: '/' :: '/' :: (N ++ (url ++ tail))) =
      some (S, N, (splitFirst '?' (splitFirst '#' (url ++ tail)).1).1,
        ((splitFirst '?' (splitFirst '#' (url ++ tail)).1).2).getD [],
        ((splitFirst '#' (url ++ tail)).2).getD []) := by
  obtain ⟨s0, S', rfl⟩ : ∃ s0 S', S = s0 :: S' := by
    rcases S with _ | ⟨a, b⟩
    · exact absurd rfl hS_ne
    · exact ⟨a, b, rfl⟩
  rcases url with _ | ⟨u0, url'⟩
  · cases hurl
  replace hurl : some u0 = some '/' := hurl
  injection hurl with hurl
  subst hurl
  have hs0 : isAsciiAlpha s0 = true := by simpa [headIsAsciiAlpha] using hS_head
  have hlstrip :
      lstripWhile isC0ControlOrSpace
        ((s0 :: S') ++ ':' :: '/' :: '/' :: (N ++ ('/' :: url' ++ tail))) =
      (s0 :: S') ++ ':' :: '/' :: '/' :: (N ++ ('/' :: url' ++ tail)) :=
    lstripWhile_cons_false _ (isC0_false_of_alpha hs0)
  have hSm : ∀ x ∈ (s0 :: S' : Str), isUnsafeUrlChar x = false := fun x hx =>
    hclean x (List.mem_append.mpr (Or.inl (List.mem_append.mpr
      (Or.inl (List.mem_append.mpr (Or.inl hx))))))
  have hNm : ∀ x ∈ N, isUnsafeUrlChar x = false := fun x hx =>
    hclean x (List.mem_append.mpr (Or.inl (List.mem_append.mpr
      (Or.inl (List.mem_append.mpr (Or.inr hx))))))
  have hUm : ∀ x ∈ ('/' :: url' : Str), isUnsafeUrlChar x = false := fun x hx =>
    hclean x (List.mem_append.mpr (Or.inl (List.mem_append.mpr (Or.inr hx))))
  have hTm : ∀ x ∈ tail, isUnsafeUrlChar x = false := fun x hx =>
    hclean x (List.mem_append.mpr (Or.inr hx))
  have hfil :
      List.filter (fun c => ¬ isUnsafeUrlChar c)
        ((s0 :: S') ++ ':' :: '/' :: '/' :: (N ++ ('/' :: url' ++ tail))) =
      (s0 :: S') ++ ':' :: '/' :: '/' :: (N ++ ('/' :: url' ++ tail)) := by
    apply List.filter_eq_self.mpr
    intro a ha
    have hmem : a ∈ (s0 :: S' : Str) ∨ a = ':' ∨ a = '/' ∨ a ∈ N ∨
        a ∈ ('/' :: url' : Str) ∨ a ∈ tail := by
      simp only [List.mem_append, List.mem_cons] at ha
      simp only [List.mem_append, List.mem_cons]
      tauto
    rcases hmem with h | rfl | rfl | h | h | h
    · simp [hSm a h]
    · decide
    · decide
    · simp [hNm a h]
    · simp [hUm a h]
    · simp [hTm a h]
  have hfind :
      findIdx ':' ((s0 :: S') ++ ':' :: '/' :: '/' :: (N ++ ('/' :: url' ++ tail))) =
        some (s0 :: S').length := by
    apply findIdx_append_not_mem
    intro hm
    exact schemeChar_ne_colon (List.all_eq_true.mp hS_chars ':' hm) rfl
  have htake :
      ((s0 :: S') ++ ':' :: '/' :: '/' :: (N ++ ('/' :: url' ++ tail))).take
        (s0 :: S').length = s0 :: S' :=
    List.take_left _ _
  have hdrop :
      ((s0 :: S') ++ ':' :: '/' :: '/' :: (N ++ ('/' :: url' ++ tail))).drop
        ((s0 :: S').length + 1) = '/' :: '/' :: (N ++ ('/' :: url' ++ tail)) := by
    rw [List.append_cons]
    have hlen : (s0 :: S').length + 1 = ((s0 :: S') ++ [':']).length := by simp
    rw [hlen, List.drop_left]
  have hcond : 0 < (s0 :: S').length ∧
      headIsAsciiAlpha ((s0 :: S') ++ ':' :: '/' :: '/' :: (N ++ ('/' :: url' ++ tail)))
        = true ∧
      (((s0 :: S') ++ ':' :: '/' :: '/' :: (N ++ ('/' :: url' ++ tail))).take
        (s0 :: S').length).all isSchemeChar = true := by
    refine ⟨by simp, hS_head, ?_⟩
    rw [htake]
    exact hS_chars
  have hNall : ∀ c ∈ N, (decide (¬ isNetlocEnd c = true)) = true := by
    intro c hc
    simp [hN c hc]
  have hBtw : (('/' :: url') ++ tail).takeWhile (fun c => ¬ isNetlocEnd c) = [] :=
    takeWhile_cons_false _ (by decide)
  have hBdw : (('/' :: url') ++ tail).dropWhile (fun c => ¬ isNetlocEnd c) =
      ('/' :: url') ++ tail :=
    dropWhile_cons_false _ (by decide)
  have hbrneg : ¬ ((strContains N '[' = true ∧ ¬ strContains N ']' = true) ∨
      (strContains N ']' = true ∧ ¬ strContains N '[' = true)) := by
    rintro (⟨h1, h2⟩ | ⟨h1, h2⟩)
    · exact h2 (by rw [← hbr]; exact h1)
    · exact h2 (by rw [hbr]; exact h1)
  simp only [urlsplitM]
  rw [hlstrip, hfil, hfind]
  dsimp only
  rw [if_pos hcond, htake, hS_low, hdrop]
  dsimp only
  have hsw : startsWith2Slash ('/' :: '/' :: (N ++ ('/' :: url' ++ tail))) = true := by
    simp [startsWith2Slash]
  have hdrop2 : ('/' :: '/' :: (N ++ ('/' :: url' ++ tail))).drop 2 =
      N ++ ('/' :: url' ++ tail) := by
    simp
  rw [if_pos hsw]
  dsimp only
  rw [hdrop2]
  rw [takeWhile_append_all _ hNall, hBtw, List.append_nil,
      dropWhile_append_all _ hNall, hBdw]
  rw [if_neg hbrneg]

theorem urlsplitM_http_prepend (y S N Pp Q F : Str)
    (h : urlsplitM ("http://".data ++ y) = some (S, N, Pp, Q, F)) : S = "http".data := by
  simp only [urlsplitM] at h
  have hl : lstripWhile isC0ControlOrSpace ("http://".data ++ y) = "http://".data ++ y :=
    lstripWhile_cons_false _ (by decide)
  rw [hl] at h
  have hf : List.filter (fun c => ¬ isUnsafeUrlChar c) ("http://".data ++ y) =
      "http://".data ++ List.filter (fun c => ¬ isUnsafeUrlChar c) y := by
    rw [List.filter_append]
    congr 1
  rw [hf] at h
  have heq : ("http://".data : Str) ++ List.filter (fun c => ¬ isUnsafeUrlChar c) y =
      ("http".data : Str) ++ ':' ::
        ('/' :: '/' :: List.filter (fun c => ¬ isUnsafeUrlChar c) y) := rfl
  have hfind : findIdx ':'
      ("http://".data ++ List.filter (fun c => ¬ isUnsafeUrlChar c) y) = some 4 := by
    rw [heq, findIdx_append_not_mem ':' _ _ (by decide)]
    rfl
  rw [hfind] at h
  dsimp only at h
  have hcond : 0 < 4 ∧
      headIsAsciiAlpha ("http://".data ++ List.filter (fun c => ¬ isUnsafeUrlChar c) y)
        = true ∧
      (("http://".data ++ List.filter (fun c => ¬ isUnsafeUrlChar c) y).take 4).all
        isSchemeChar = true := by
    refine ⟨by decide, rfl, ?_⟩
    have ht4 : ("http://".data ++ List.filter (fun c => ¬ isUnsafeUrlChar c) y).take 4 =
        "http".data := rfl
    rw [ht4]
    decide
  rw [if_pos hcond] at h
  split at h
  · split at h
    · exact absurd h (by simp)
    · simp only [Option.some.injEq, Prod.mk.injEq] at h
      rw [← h.1]
      rfl
  · split at h
    · exact absurd h (by simp)
    · simp only [Option.some.injEq, Prod.mk.injEq] at h
      rw [← h.1]
      rfl

theorem urlparseM_inv (u : Str) (p : ParseResult) (h : urlparseM u = some p) :
    ∃ path0 : Str,
      urlsplitM u = some (p.scheme, p.netloc, path0, p.query, p.fragment) ∧
      ((uses_params.contains p.scheme = true ∧ strContains path0 ';' = true) ∧
         splitparams path0 = (p.path, p.params) ∨
       ¬ (uses_params.contains p.scheme = true ∧ strContains path0 ';' = true) ∧
         p.path = path0 ∧ p.params = []) := by
  simp only [urlparseM] at h
  rcases hs : urlsplitM u with _ | ⟨S, N, Pp, Q, F⟩
  · rw [hs] at h
    exact Option.noConfusion h
  · rw [hs] at h
    dsimp only at h
    by_cases hc : uses_params.contains S = true ∧ strContains Pp ';' = true
    · rw [if_pos hc] at h
      replace h :
          some (ParseResult.mk S N (splitparams Pp).1 (splitparams Pp).2 Q F) = some p := h
      injection h with h
      subst h
      exact ⟨Pp, rfl, Or.inl ⟨hc, rfl⟩⟩
    · rw [if_neg hc] at h
      replace h : some (ParseResult.mk S N Pp [] Q F) = some p := h
      injection h with h
      subst h
      exact ⟨Pp, rfl, Or.inr ⟨hc, rfl, rfl⟩⟩

theorem parse_url_inv (u : Str) (p : ParseResult) (h : parse_url u = some p) :
    p.scheme ≠ [] ∧ p.netloc ≠ [] ∧ ∃ v, urlparseM v = some p := by
  simp only [parse_url] at h
  rcases h1 : urlparseM u with _ | p1
  · rw [h1] at h
    exact Option.noConfusion h
  · rw [h1] at h
    dsimp only at h
    by_cases hsch : p1.scheme = []
    · rw [if_pos hsch] at h
      rcases h2 : urlparseM ("http://".data ++ lstripWhile (fun c => c = ':' ∨ c = '/') u)
        with _ | p2
      · rw [h2] at h
        exact Option.noConfusion h
      · rw [h2] at h
        dsimp only at h
        by_cases hn2 : p2.netloc = []
        · rw [if_pos hn2] at h
          exact Option.noConfusion h
        · rw [if_neg hn2] at h
          injection h with h
          subst h
          refine ⟨?_, hn2, _, h2⟩
          obtain ⟨path0, hsp, _⟩ := urlparseM_inv _ _ h2
          have hhttp := urlsplitM_http_prepend _ _ _ _ _ _ hsp
          rw [hhttp]
          decide
    · rw [if_neg hsch] at h
      rw [h1] at h
      dsimp only at h
      by_cases hn2 : p1.netloc = []
      · rw [if_pos hn2] at h
        exact Option.noConfusion h
      · rw [if_neg hn2] at h
        injection h with h
        subst h
        exact ⟨hsch, hn2, u, h1⟩

theorem splitFrag_eq (u2 Q F : Str)
    (hnoh : ('#') ∉ u2 ++ (if Q ≠ [] then '?' :: Q else [])) :
    splitFirst '#' (u2 ++ ((if Q ≠ [] then '?' :: Q else []) ++
      (if F ≠ [] then '#' :: F else []))) =
      (u2 ++ (if Q ≠ [] then '?' :: Q else []), if F ≠ [] then some F else none) := by
  by_cases hF : F ≠ []
  · rw [if_pos hF, if_pos hF, ← List.append_assoc]
    exact splitFirst_append '#' _ _ hnoh
  · rw [if_neg hF, if_neg hF, List.append_nil]
    exact splitFirst_not_mem '#' _ hnoh

theorem splitQuery_eq (u2 Q : Str) (hnoq : ('?') ∉ u2) :
    splitFirst '?' (u2 ++ (if Q ≠ [] then '?' :: Q else [])) =
      (u2, if Q ≠ [] then some Q else none) := by
  by_cases hQ : Q ≠ []
  · rw [if_pos hQ, if_pos hQ]
    exact splitFirst_append '?' _ _ hnoq
  · rw [if_neg hQ, if_neg hQ, List.append_nil]
    exact splitFirst_not_mem '?' _ hnoq

theorem ite_option_getD (X : Str) : (if X ≠ [] then some X else none).getD [] = X := by
  by_cases hX : X ≠ []
  · rw [if_pos hX]
    rfl
  · rw [if_neg hX, not_ne_iff.mp hX]
    rfl

theorem urlparseM_unparse (S N P R Q F : Str) (inv : CanonInv S N P R Q F) :
    urlparseM (urlunparseM S N P R Q F) = some ⟨S, N, P, R, Q, F⟩ := by
  have hPne : P ≠ [] := by
    intro h
    have hph := inv.path_head
    rw [h] at hph
    cases hph
  have hPmem : ('/') ∈ P := by
    rcases P with _ | ⟨p0, P'⟩
    · exact absurd rfl hPne
    · have hph := inv.path_head
      replace hph : some p0 = some '/' := hph
      injection hph with hph
      subst hph
      exact List.mem_cons_self _ _
  have hurlhead : (if R ≠ [] then P ++ ';' :: R else P).head? = some '/' := by
    by_cases hR : R ≠ []
    · rw [if_pos hR, List.head?_append, inv.path_head]
      rfl
    · rw [if_neg hR]
      exact inv.path_head
  have hnoq : ('?') ∉ (if R ≠ [] then P ++ ';' :: R else P) := by
    by_cases hR : R ≠ []
    · rw [if_pos hR]
      intro hm
      rcases List.mem_append.mp hm with hm | hm
      · exact inv.path_no_q hm
      · rcases List.mem_cons.mp hm with he | hm
        · exact absurd he (by decide)
        · exact (inv.params_ok _ hm).2.1 rfl
    · rw [if_neg hR]
      exact inv.path_no_q
  have hnoh : ('#') ∉ (if R ≠ [] then P ++ ';' :: R else P) ++
      (if Q ≠ [] then '?' :: Q else []) := by
    intro hm
    rcases List.mem_append.mp hm with hm | hm
    · by_cases hR : R ≠ []
      · rw [if_pos hR] at hm
        rcases List.mem_append.mp hm with hm | hm
        · exact inv.path_no_h hm
        · rcases List.mem_cons.mp hm with he | hm
          · exact absurd he (by decide)
          · exact (inv.params_ok _ hm).2.2 rfl
      · rw [if_neg hR] at hm
        exact inv.path_no_h hm
    · by_cases hQ : Q ≠ []
      · rw [if_pos hQ] at hm
        rcases List.mem_cons.mp hm with he | hm
        · exact absurd he (by decide)
        · exact inv.query_no_h hm
      · rw [if_neg hQ] at hm
        simp at hm
  have hclean' : ∀ c ∈ S ++ N ++ (if R ≠ [] then P ++ ';' :: R else P) ++
      ((if Q ≠ [] then '?' :: Q else []) ++ (if F ≠ [] then '#' :: F else [])),
      isUnsafeUrlChar c = false := by
    intro c hc
    have hC := inv.clean
    simp only [List.mem_append] at hc
    rcases hc with ((hc | hc) | hc) | hc
    · exact hC c (by simp only [List.mem_append]; tauto)
    · exact hC c (by simp only [List.mem_append]; tauto)
    · by_cases hR : R ≠ []
      · rw [if_pos hR] at hc
        simp only [List.mem_append, List.mem_cons] at hc
        rcases hc with hc | rfl | hc
        · exact hC c (by simp only [List.mem_append]; tauto)
        · decide
        · exact hC c (by simp only [List.mem_append]; tauto)
      · rw [if_neg hR] at hc
        exact hC c (by simp only [List.mem_append]; tauto)
    · rcases hc with hc | hc
      · by_cases hQ : Q ≠ []
        · rw [if_pos hQ] at hc
          rcases List.mem_cons.mp hc with rfl | hc
          · decide
          · exact hC c (by simp only [List.mem_append]; tauto)
        · rw [if_neg hQ] at hc
          simp at hc
      · by_cases hF : F ≠ []
        · rw [if_pos hF] at hc
          rcases List.mem_cons.mp hc with rfl | hc
          · decide
          · exact hC c (by simp only [List.mem_append]; tauto)
        · rw [if_neg hF] at hc
          simp at hc
  have hinner : ¬ ((if R ≠ [] then P ++ ';' :: R else P) ≠ [] ∧
      (if R ≠ [] then P ++ ';' :: R else P).head? ≠ some '/') :=
    fun hand => hand.2 hurlhead
  have hu : urlunparseM S N P R Q F =
      S ++ ':' :: '/' :: '/' :: (N ++ ((if R ≠ [] then P ++ ';' :: R else P) ++
        ((if Q ≠ [] then '?' :: Q else []) ++ (if F ≠ [] then '#' :: F else [])))) := by
    rw [urlunparseM, urlunsplitM]
    rw [if_pos (Or.inl inv.netloc_ne), if_neg hinner, if_pos inv.scheme_ne]
    by_cases hQ : Q ≠ [] <;> by_cases hF : F ≠ []
    · simp only [if_pos hQ, if_pos hF]
      simp [List.append_assoc]
    · rw [not_ne_iff.mp hF]
      simp only [if_pos hQ]
      simp [List.append_assoc]
    · rw [not_ne_iff.mp hQ]
      simp only [if_pos hF]
      simp [List.append_assoc]
    · rw [not_ne_iff.mp hQ, not_ne_iff.mp hF]
      simp
  simp only [urlparseM]
  rw [hu, urlsplitM_exact S N (if R ≠ [] then P ++ ';' :: R else P)
    ((if Q ≠ [] then '?' :: Q else []) ++ (if F ≠ [] then '#' :: F else []))
    inv.scheme_ne inv.scheme_head inv.scheme_chars inv.scheme_lower inv.netloc_end
    inv.netloc_br hurlhead hclean']
  dsimp only
  rw [splitFrag_eq _ _ _ hnoh]
  dsimp only
  rw [splitQuery_eq _ _ hnoq]
  dsimp only
  rw [ite_option_getD Q, ite_option_getD F]
  by_cases hR : R ≠ []
  · simp only [if_pos hR]
    have hsp := splitparams_append P R hPmem (fun hm => (inv.params_ok _ hm).1 rfl)
      (inv.path_last_seg (inv.params_uses hR))
    rw [if_pos ⟨inv.params_uses hR, (strContains_iff _ _).mpr
      (List.mem_append.mpr (Or.inr (List.mem_cons_self _ _)))⟩, hsp]
  · simp only [if_neg hR]
    rw [not_ne_iff.mp hR]
    by_cases hcp : uses_params.contains S = true ∧ strContains P ';' = true
    · rw [if_pos hcp, splitparams_no_params P hPmem (inv.path_last_seg hcp.1)]
    · rw [if_neg hcp]

theorem parse_url_unparse (S N P R Q F : Str) (inv : CanonInv S N P R Q F) :
    parse_url (urlunparseM S N P R Q F) = some ⟨S, N, P, R, Q, F⟩ := by
  have h := urlparseM_unparse S N P R Q F inv
  simp only [parse_url]
  rw [h]
  dsimp only
  rw [if_neg inv.scheme_ne, h]
  dsimp only
  rw [if_neg inv.netloc_ne]

set_option maxHeartbeats 1000000 in
theorem canonInv_of_parse (u : Str) (p : ParseResult) (h : parse_url u = some p) :
    CanonInv p.scheme (lowerStr p.netloc) (if p.path = [] then ['/'] else p.path)
      p.params (order_query p.query) p.fragment := by
  obtain ⟨hs_ne, hn_ne, v, hv⟩ := parse_url_inv u p h
  obtain ⟨path0, hsplit, hcase⟩ := urlparseM_inv v p hv
  have SF := urlsplitM_facts v _ _ _ _ _ hsplit
  obtain ⟨hhead, hchars, hlow⟩ := SF.scheme_facts hs_ne
  have hps := SF.path_shape hn_ne
  have hPR :
      (p.path.head? = path0.head? ∧ (∀ c ∈ p.path, c ∈ path0) ∧
       (∀ c ∈ p.params, c ∈ path0 ∧ c ≠ '/') ∧
       ((';') ∉ p.path.reverse.takeWhile fun c => ¬ c = '/') ∧
       uses_params.contains p.scheme = true) ∨
      (p.path = path0 ∧ p.params = [] ∧
        ¬ (uses_params.contains p.scheme = true ∧ strContains path0 ';' = true)) := by
    rcases hcase with ⟨⟨huse, hsemi⟩, hsp⟩ | ⟨hncond, heq, hparams⟩
    · have hpmem : ('/') ∈ path0 := by
        rcases hps with h0 | h0
        · rw [h0] at hsemi
          exact absurd hsemi (by decide)
        · rcases path0 with _ | ⟨c0, t0⟩
          · cases h0
          · replace h0 : some c0 = some '/' := h0
            injection h0 with h0
            subst h0
            exact List.mem_cons_self _ _
      obtain ⟨f1, f2, f3, f4⟩ := splitparams_facts path0 p.path p.params hpmem hsp
      exact Or.inl ⟨f1, f2, f3, f4, huse⟩
    · exact Or.inr ⟨heq, hparams, hncond⟩
  have hcS : ∀ x ∈ p.scheme, isUnsafeUrlChar x = false := fun x hx =>
    SF.clean x (by simp only [List.mem_append]; tauto)
  have hcN : ∀ x ∈ p.netloc, isUnsafeUrlChar x = false := fun x hx =>
    SF.clean x (by simp only [List.mem_append]; tauto)
  have hcP0 : ∀ x ∈ path0, isUnsafeUrlChar x = false := fun x hx =>
    SF.clean x (by simp only [List.mem_append]; tauto)
  have hcQ : ∀ x ∈ p.query, isUnsafeUrlChar x = false := fun x hx =>
    SF.clean x (by simp only [List.mem_append]; tauto)
  have hcF : ∀ x ∈ p.fragment, isUnsafeUrlChar x = false := fun x hx =>
    SF.clean x (by simp only [List.mem_append]; tauto)
  refine ⟨hs_ne, hhead, hchars, hlow, ?_, ?_, ?_, ?_, ?_, ?_, ?_, ?_, ?_, ?_, ?_⟩
  · intro hmap
    exact hn_ne (by simpa [lowerStr] using hmap)
  · intro c hc
    rcases List.mem_map.mp hc with ⟨d, hd, rfl⟩
    rw [isNetlocEnd_lowerChar]
    exact SF.netloc_end d hd
  · rw [strContains_lowerStr _ _ (by decide) (by decide),
        strContains_lowerStr _ _ (by decide) (by decide)]
    exact SF.netloc_br
  · by_cases hp0 : p.path = []
    · rw [if_pos hp0]
      rfl
    · rw [if_neg hp0]
      rcases hPR with ⟨f1, _, _, _, _⟩ | ⟨heq, _, _⟩
      · rw [f1]
        rcases hps with h0 | h0
        · rcases hcase with ⟨⟨_, hsemi⟩, _⟩ | ⟨_, heq, _⟩
          · rw [h0] at hsemi
            exact absurd hsemi (by decide)
          · rw [heq, h0] at hp0
            exact absurd rfl hp0
        · exact h0
      · rw [heq]
        rcases hps with h0 | h0
        · rw [heq] at hp0
          exact absurd h0 hp0
        · exact h0
  · by_cases hp0 : p.path = []
    · rw [if_pos hp0]
      decide
    · rw [if_neg hp0]
      rcases hPR with ⟨_, f2, _, _, _⟩ | ⟨heq, _, _⟩
      · exact fun hm => SF.path_no_q (f2 '?' hm)
      · rw [heq]
        exact SF.path_no_q
  · by_cases hp0 : p.path = []
    · rw [if_pos hp0]
      decide
    · rw [if_neg hp0]
      rcases hPR with ⟨_, f2, _, _, _⟩ | ⟨heq, _, _⟩
      · exact fun hm => SF.path_no_h (f2 '#' hm)
      · rw [heq]
        exact SF.path_no_h
  · intro c hc
    rcases hPR with ⟨_, _, f3, _, _⟩ | ⟨_, hparams, _⟩
    · obtain ⟨hc0, hcslash⟩ := f3 c hc
      refine ⟨hcslash, ?_, ?_⟩
      · intro he
        exact SF.path_no_q (he ▸ hc0)
      · intro he
        exact SF.path_no_h (he ▸ hc0)
    · rw [hparams] at hc
      exact absurd hc (List.not_mem_nil c)
  · intro hm
    exact (urlencode_chars (sortPairs (parse_qsl p.query)) '#' hm).1 rfl
  · intro c hc
    simp only [List.mem_append] at hc
    rcases hc with ((((hc | hc) | hc) | hc) | hc) | hc
    · exact hcS c hc
    · rcases List.mem_map.mp hc with ⟨d, hd, rfl⟩
      rw [isUnsafeUrlChar_lowerChar]
      exact hcN d hd
    · by_cases hp0 : p.path = []
      · rw [if_pos hp0] at hc
        rcases List.mem_cons.mp hc with rfl | hc
        · decide
        · exact absurd hc (List.not_mem_nil c)
      · rw [if_neg hp0] at hc
        rcases hPR with ⟨_, f2, _, _, _⟩ | ⟨heq, _, _⟩
        · exact hcP0 c (f2 c hc)
        · rw [heq] at hc
          exact hcP0 c hc
    · rcases hPR with ⟨_, _, f3, _, _⟩ | ⟨_, hparams, _⟩
      · exact hcP0 c (f3 c hc).1
      · rw [hparams] at hc
        exact absurd hc (List.not_mem_nil c)
    · exact (urlencode_chars (sortPairs (parse_qsl p.query)) c hc).2.2
    · exact hcF c hc
  · intro huse
    by_cases hp0 : p.path = []
    · rw [if_pos hp0]
      decide
    · rw [if_neg hp0]
      rcases hPR with ⟨_, _, _, f4, _⟩ | ⟨heq, _, hncond⟩
      · exact f4
      · have hnc : strContains path0 ';' = false := by
          cases hcontains : strContains path0 ';'
          · rfl
          · exact absurd ⟨huse, hcontains⟩ hncond
        intro hm
        rw [heq] at hm
        exact strContains_eq_false hnc (List.mem_reverse.mp (mem_of_mem_takeWhile hm))
  · intro hRne
    rcases hPR with ⟨_, _, _, _, huse⟩ | ⟨_, hparams, _⟩
    · exact huse
    · exact absurd hparams hRne

theorem normalize_url_reparse (u v : Str) (h : normalize_url u = some v) :
    normalize_url v = some v := by
  simp only [normalize_url] at h ⊢
  rcases hp : parse_url u with _ | p
  · rw [hp] at h
    exact Option.noConfusion h
  · rw [hp] at h
    dsimp only at h
    replace h : some (urlunparseM p.scheme (lowerStr p.netloc)
      (if p.path = [] then ['/'] else p.path) p.params (order_query p.query)
      p.fragment) = some v := h
    injection h with h
    have inv := canonInv_of_parse u p hp
    have hpv := parse_url_unparse _ _ _ _ _ _ inv
    rw [← h, hpv]
    dsimp only
    have hne : (if p.path = [] then ['/'] else p.path) ≠ [] := by
      by_cases hp0 : p.path = []
      · rw [if_pos hp0]
        exact List.cons_ne_nil _ _
      · rw [if_neg hp0]
        exact hp0
    rw [lowerStr_idem, if_neg hne, order_query_idem]

/-- **C8.** Normalization is idempotent: for every input `u` on which
`normalize_url` succeeds, producing the canonical string `v`, running
`normalize_url` on `v` succeeds and returns `v` unchanged — so
`normalize(normalize(u)) = normalize(u)`. -/
theorem normalize_url_idem (u v : Str) (h : normalize_url u = some v) :
    normalize_url v = some v :=
  normalize_url_reparse u v h

/-- Witness for `normalize_url_idem`: normalizing `HTTP://A/x` yields
`http://a/x`, and normalizing that output returns it unchanged. -/
theorem normalize_url_idem_witness :
    normalize_url "http://a/x".data = some "http://a/x".data :=
  normalize_url_idem "HTTP://A/x".data "http://a/x".data (by decide)

/-- **C9** (counterexample to the claim as frozen).  Two URLs that agree in
scheme, host, path, params and fragment but whose raw query strings differ
textually — the same value spelled `%61` and `a` — normalize to the same
canonical string, refuting the claim's second half ("two URLs differing in
… any query value do not" normalize equal) read over the textual query
component: normalization compares decoded query pairs, not query text. -/
theorem normalize_url_query_spelling_collision :
    normalize_url "http://a/p?x=%61".data = normalize_url "http://a/p?x=a".data ∧
    (parse_url "http://a/p?x=%61".data).map ParseResult.query ≠
      (parse_url "http://a/p?x=a".data).map ParseResult.query ∧
    (parse_url "http://a/p?x=%61".data).map ParseResult.scheme =
      (parse_url "http://a/p?x=a".data).map ParseResult.scheme ∧
    (parse_url "http://a/p?x=%61".data).map ParseResult.netloc =
      (parse_url "http://a/p?x=a".data).map ParseResult.netloc ∧
    (parse_url "http://a/p?x=%61".data).map ParseResult.path =
      (parse_url "http://a/p?x=a".data).map ParseResult.path ∧
    (parse_url "http://a/p?x=%61".data).map ParseResult.fragment =
      (parse_url "http://a/p?x=a".data).map ParseResult.fragment :=
  ⟨by decide, by decide, by decide, by decide, by decide, by decide⟩

/-- **C9** (amended).  For URLs the parser accepts, `normalize_url` returns
the same canonical string exactly when the canonical components agree: the
parse-lower-cased scheme, the lower-cased netloc, the path with an empty
path defaulted to `/`, the params, the decoded-and-sorted query pair list,
and the fragment.  Query-parameter order, netloc letter case and
percent-encoding spellings that decode equal therefore do not affect the
output, while scheme, netloc, path (case included), params, fragment, and
decoded query values all do. -/
theorem normalize_url_eq_iff_canon (u1 u2 : Str) (p1 p2 : ParseResult)
    (h1 : parse_url u1 = some p1) (h2 : parse_url u2 = some p2) :
    normalize_url u1 = normalize_url u2 ↔ canonOf u1 = canonOf u2 := by
  have c1 : canonOf u1 = some ⟨p1.scheme, lowerStr p1.netloc,
      (if p1.path = [] then ['/'] else p1.path), p1.params,
      sortPairs (parse_qsl p1.query), p1.fragment⟩ := by
    rw [canonOf, h1]
    rfl
  have c2 : canonOf u2 = some ⟨p2.scheme, lowerStr p2.netloc,
      (if p2.path = [] then ['/'] else p2.path), p2.params,
      sortPairs (parse_qsl p2.query), p2.fragment⟩ := by
    rw [canonOf, h2]
    rfl
  have n1 : normalize_url u1 = some (urlunparseM p1.scheme (lowerStr p1.netloc)
      (if p1.path = [] then ['/'] else p1.path) p1.params (order_query p1.query)
      p1.fragment) := by
    simp only [normalize_url]
    rw [h1]
  have n2 : normalize_url u2 = some (urlunparseM p2.scheme (lowerStr p2.netloc)
      (if p2.path = [] then ['/'] else p2.path) p2.params (order_query p2.query)
      p2.fragment) := by
    simp only [normalize_url]
    rw [h2]
  have inv1 := canonInv_of_parse u1 p1 h1
  have inv2 := canonInv_of_parse u2 p2 h2
  have k1 : parse_qsl (order_query p1.query) = sortPairs (parse_qsl p1.query) :=
    parse_qsl_urlencode _
  have k2 : parse_qsl (order_query p2.query) = sortPairs (parse_qsl p2.query) :=
    parse_qsl_urlencode _
  constructor
  · intro he
    rw [n1, n2] at he
    injection he with he
    have r1 := urlparseM_unparse _ _ _ _ _ _ inv1
    have r2 := urlparseM_unparse _ _ _ _ _ _ inv2
    rw [he, r2] at r1
    injection r1 with r1
    rw [ParseResult.mk.injEq] at r1
    obtain ⟨e1, e2, e3, e4, e5, e6⟩ := r1
    have epairs : sortPairs (parse_qsl p2.query) = sortPairs (parse_qsl p1.query) := by
      rw [← k2, e5, k1]
    rw [c1, c2]
    simp only [Option.some.injEq, CanonParts.mk.injEq]
    exact ⟨e1.symm, e2.symm, e3.symm, e4.symm, epairs.symm, e6.symm⟩
  · intro hc
    rw [c1, c2] at hc
    simp only [Option.some.injEq, CanonParts.mk.injEq] at hc
    obtain ⟨e1, e2, e3, e4, e5, e6⟩ := hc
    have eq5 : order_query p1.query = order_query p2.query := by
      show urlencode (sortPairs (parse_qsl p1.query)) =
        urlencode (sortPairs (parse_qsl p2.query))
      rw [e5]
    rw [n1, n2, e1, e2, e3, e4, eq5, e6]

/-- Witness for `normalize_url_eq_iff_canon` at two URLs differing only in
netloc letter case and query-parameter order. -/
theorem normalize_url_eq_iff_canon_witness :
    (normalize_url "http://A/p?b=2&a=1".data = normalize_url "http://a/p?a=1&b=2".data
      ↔ canonOf "http://A/p?b=2&a=1".data = canonOf "http://a/p?a=1&b=2".data) :=
  normalize_url_eq_iff_canon "http://A/p?b=2&a=1".data "http://a/p?a=1&b=2".data
    ⟨"http".data, "A".data, "/p".data, [], "b=2&a=1".data, []⟩
    ⟨"http".data, "a".data, "/p".data, [], "a=1&b=2".data, []⟩
    (by decide) (by decide)
